import Mathlib

/-!
Verification of the bitboard Connect Four engine (`connect_four_ai.py`).

The definitions below are a shallow embedding of the Python source:
bitboards are `Nat`, scores are `Int`, the transposition dictionary is an
association list with overwrite-by-prepend semantics, `random.choice` is
modelled by an explicit `pick : List Nat → Nat` parameter, and raising
`ValueError` is modelled with `Except` (for `make_move`) and an error
component threaded next to the final state (for `GameState.drop`).
-/

namespace ConnectFour

/-! ## Board geometry and masks (source lines 19-29) -/

def WIDTH : Nat := 7
def HEIGHT : Nat := 6
def HEIGHT1 : Nat := HEIGHT + 1
def SIZE : Nat := WIDTH * HEIGHT1

def COLUMN_MASKS (c : Nat) : Nat := ((1 <<< HEIGHT) - 1) <<< (c * HEIGHT1)
def BOTTOM_MASKS (c : Nat) : Nat := 1 <<< (c * HEIGHT1)
def TOP_MASKS (c : Nat) : Nat := 1 <<< (HEIGHT - 1 + c * HEIGHT1)

def MOVE_ORDER : List Nat := [3, 2, 4, 1, 5, 0, 6]

/-! ## Terminal detector (source lines 32-50) -/

def has_won (bits : Nat) : Bool :=
  let mv := bits &&& (bits >>> 1)
  if mv &&& (mv >>> 2) ≠ 0 then true
  else
    let mh := bits &&& (bits >>> HEIGHT1)
    if mh &&& (mh >>> (2 * HEIGHT1)) ≠ 0 then true
    else
      let md1 := bits &&& (bits >>> (HEIGHT1 - 1))
      if md1 &&& (md1 >>> (2 * (HEIGHT1 - 1))) ≠ 0 then true
      else
        let md2 := bits &&& (bits >>> (HEIGHT1 + 1))
        md2 &&& (md2 >>> (2 * (HEIGHT1 + 1))) ≠ 0

/-! ## Moves (source lines 53-66) -/

/-- The bit pattern `(mask + BOTTOM_MASKS[col]) & COLUMN_MASKS[col]` that
`make_move` adds to the mover's board (source line 56). -/
def move_bit (mask col : Nat) : Nat :=
  (mask + BOTTOM_MASKS col) &&& COLUMN_MASKS col

def make_move (player_bits opponent_bits col : Nat) :
    Except String (Nat × Nat) :=
  let mask := player_bits ||| opponent_bits
  let move := move_bit mask col
  if move = 0 then .error "Column is full"
  else .ok (player_bits ||| move, opponent_bits)

def valid_columns (player_bits opponent_bits : Nat) : List Nat :=
  let mask := player_bits ||| opponent_bits
  MOVE_ORDER.filter (fun c => mask &&& TOP_MASKS c == 0)

/-! ## Cell access and heuristic (source lines 69-131) -/

def bit_at (bits r c : Nat) : Nat := (bits >>> (c * HEIGHT1 + r)) &&& 1

/-- Grid value of a cell: `+1` AI, `-1` human, `0` empty (source line 106). -/
def cell (ai_bits human_bits r c : Nat) : Int :=
  (bit_at ai_bits r c : Int) - (bit_at human_bits r c : Int)

/-- `score_window` (source lines 83-98): two independent if-chains, one for
the AI counts and one for the human counts, contributing a sum. -/
def score_window (w : List Int) : Int :=
  let ai_count := w.count 1
  let human_count := w.count (-1)
  let empty_count := w.count 0
  (if ai_count = 4 then 100000
   else if ai_count = 3 ∧ empty_count = 1 then 100
   else if ai_count = 2 ∧ empty_count = 2 then 10
   else 0)
  + (if human_count = 3 ∧ empty_count = 1 then -120
     else if human_count = 4 then -100000
     else 0)

def heuristic (ai_bits human_bits : Nat) : Int :=
  let center_col := WIDTH / 2
  let center : Int :=
    ((List.range HEIGHT).map (fun r => cell ai_bits human_bits r center_col)).sum * 6
  let horiz : Int :=
    ((List.range HEIGHT).map (fun r =>
      ((List.range (WIDTH - 3)).map (fun c =>
        score_window ((List.range 4).map
          (fun i => cell ai_bits human_bits r (c + i))))).sum)).sum
  let vert : Int :=
    ((List.range WIDTH).map (fun c =>
      ((List.range (HEIGHT - 3)).map (fun r =>
        score_window ((List.range 4).map
          (fun i => cell ai_bits human_bits (r + i) c)))).sum)).sum
  let diag1 : Int :=
    ((List.range (HEIGHT - 3)).map (fun r =>
      ((List.range (WIDTH - 3)).map (fun c =>
        score_window ((List.range 4).map
          (fun i => cell ai_bits human_bits (r + i) (c + i))))).sum)).sum
  let diag2 : Int :=
    ((List.range (HEIGHT - 3)).map (fun r =>
      ((List.range (WIDTH - 3)).map (fun c =>
        score_window ((List.range 4).map
          (fun i => cell ai_bits human_bits (r + i) (c + 3 - i))))).sum)).sum
  center + horiz + vert + diag1 + diag2

/-! ## Transposition table (source lines 134-144, 164) -/

abbrev TTEntry := Nat × Int

abbrev Table := List ((Nat × Nat) × TTEntry)

def ttLookup (tbl : Table) (key : Nat × Nat) : Option TTEntry :=
  (tbl.find? (fun e => e.1 == key)).map (·.2)

def ttStore (tbl : Table) (key : Nat × Nat) (e : TTEntry) : Table :=
  (key, e) :: tbl

/-- Two tables that agree on every key except possibly `K`. -/
def AgreeExcept (K : Nat × Nat) (t1 t2 : Table) : Prop :=
  ∀ k, k ≠ K → ttLookup t1 k = ttLookup t2 k

/-- The table has no entry for `key` usable at depth `d`: either no entry at
all, or one stored at a strictly shallower depth. -/
def StaleOrMiss (tbl : Table) (key : Nat × Nat) (d : Nat) : Prop :=
  ∀ sd ss, ttLookup tbl key = some (sd, ss) → sd < d

/-! ## Negamax with alpha-beta pruning (source lines 137-165) -/

/-- The `for col in moves` loop of `negamax` (source lines 156-162), after the
first iteration: `best` holds the running maximum (the `-math.inf` start means
`best` equals the first score once one move is scored), `rec` is the search at
the remaining depth. -/
def negamaxGo (rec : Nat → Nat → Int → Int → Table → Int × Table)
    (ai_bits human_bits : Nat) (moves : List Nat)
    (alpha beta best : Int) (tbl : Table) : Int × Table :=
  match moves with
  | [] => (best, tbl)
  | col :: rest =>
    let mask := ai_bits ||| human_bits
    let mv := move_bit mask col
    let res := rec human_bits (ai_bits ||| mv) (-beta) (-alpha) tbl
    let score := -res.1
    let best1 := max best score
    let alpha1 := max alpha score
    if beta ≤ alpha1 then (best1, res.2)
    else negamaxGo rec ai_bits human_bits rest alpha1 beta best1 res.2

/-- The transposition probe of `negamax` (source lines 140-144): the stored
score, when an entry for the key exists with stored depth at least the
requested depth. -/
def ttProbe (tbl : Table) (key : Nat × Nat) (depth : Nat) : Option Int :=
  match ttLookup tbl key with
  | some (stored_depth, stored_score) =>
    if depth ≤ stored_depth then some stored_score else none
  | none => none

def negamax (depth : Nat) (ai_bits human_bits : Nat) (alpha beta : Int)
    (tbl : Table) : Int × Table :=
  let key := (ai_bits, human_bits)
  match ttProbe tbl key depth with
  | some s => (s, tbl)
  | none =>
    if has_won ai_bits then (1000000 + (depth : Int), tbl)
    else if has_won human_bits then (-1000000 - (depth : Int), tbl)
    else
      match depth, valid_columns ai_bits human_bits with
      | 0, _ => (heuristic ai_bits human_bits, tbl)
      | _ + 1, [] => (heuristic ai_bits human_bits, tbl)
      | d + 1, col :: rest =>
        let mask := ai_bits ||| human_bits
        let mv := move_bit mask col
        let res := negamax d human_bits (ai_bits ||| mv) (-beta) (-alpha) tbl
        let score := -res.1
        let alpha1 := max alpha score
        let out :=
          if beta ≤ alpha1 then (score, res.2)
          else
            negamaxGo (fun a b al be t => negamax d a b al be t)
              ai_bits human_bits rest alpha1 beta score res.2
        (out.1, ttStore out.2 key (d + 1, out.1))

/-- Modelled from the spec: the reference full fixed-depth negamax search with
no pruning and no transposition table, with the same terminal scores, the same
heuristic leaf rule and the same legal-move set as `negamax`. -/
def plainNegamax (depth : Nat) (ai_bits human_bits : Nat) : Int :=
  if has_won ai_bits then 1000000 + (depth : Int)
  else if has_won human_bits then -1000000 - (depth : Int)
  else
    match depth, valid_columns ai_bits human_bits with
    | 0, _ => heuristic ai_bits human_bits
    | _ + 1, [] => heuristic ai_bits human_bits
    | d + 1, col :: rest =>
      let mask := ai_bits ||| human_bits
      let first := -plainNegamax d human_bits (ai_bits ||| move_bit mask col)
      rest.foldl
        (fun acc c =>
          max acc (-plainNegamax d human_bits (ai_bits ||| move_bit mask c)))
        first

/-! ## Game state (source lines 168-220) -/

structure GameState where
  ai_bits : Nat := 0
  human_bits : Nat := 0
  last_human : Option (Nat × Nat) := none
  last_ai : Option (Nat × Nat) := none
deriving Repr, DecidableEq

def GameState.is_full (st : GameState) : Bool :=
  (List.range WIDTH).all
    (fun c => (st.ai_bits ||| st.human_bits) &&& TOP_MASKS c ≠ 0)

def GameState.winner (st : GameState) : Option String :=
  if has_won st.human_bits then some "human"
  else if has_won st.ai_bits then some "computer"
  else if st.is_full then some "tie"
  else none

/-- The row `next(r for r in range(HEIGHT) if ...)` computes (source line 192):
the lowest row of `col` that is empty in `mask`. -/
def target_row (mask col : Nat) : Option Nat :=
  (List.range HEIGHT).find? (fun r => bit_at mask r col == 0)

/-- `GameState.drop` (source lines 188-198).  The result pairs the state after
the call with the raised error, if any; an exception aborts the method with
whatever mutations already happened (here: none, the column check comes
first). -/
def GameState.drop (st : GameState) (col : Nat) (is_human : Bool) :
    GameState × Option String :=
  if (st.ai_bits ||| st.human_bits) &&& TOP_MASKS col ≠ 0 then
    (st, some "Column full")
  else
    match target_row (st.ai_bits ||| st.human_bits) col with
    | none => (st, some "StopIteration")
    | some row =>
      if is_human then
        match make_move st.human_bits st.ai_bits col with
        | .error e => (st, some e)
        | .ok (hb, ab) =>
          ({ st with human_bits := hb, ai_bits := ab,
                     last_human := some (row, col) }, none)
      else
        match make_move st.ai_bits st.human_bits col with
        | .error e => (st, some e)
        | .ok (ab, hb) =>
          ({ st with ai_bits := ab, human_bits := hb,
                     last_ai := some (row, col) }, none)

def GameState.available_cols (st : GameState) : List Nat :=
  valid_columns st.ai_bits st.human_bits

/-- One iteration of the scoring loop of `best_ai_move` (source lines
212-219).  The accumulator holds `best_score` (`none` models the `-math.inf`
start, which every integer score exceeds), `best_cols`, and the shared
transposition table. -/
def bestStep (ai_bits human_bits : Nat) (depth : Nat)
    (acc : Option Int × List Nat × Table) (col : Nat) :
    Option Int × List Nat × Table :=
  let mv := move_bit (ai_bits ||| human_bits) col
  let res := negamax (depth - 1) human_bits (ai_bits ||| mv)
    (-1000000000) 1000000000 acc.2.2
  let score := -res.1
  match acc.1 with
  | none => (some score, [col], res.2)
  | some b =>
    if b < score then (some score, [col], res.2)
    else if score = b then (some b, acc.2.1 ++ [col], res.2)
    else (some b, acc.2.1, res.2)

/-- `GameState.best_ai_move` (source lines 203-220), with `random.choice`
modelled by the `pick` parameter. -/
def GameState.best_ai_move (pick : List Nat → Nat) (st : GameState)
    (depth : Nat) : Nat :=
  if st.ai_bits = 0 ∧ st.human_bits = 0 then
    pick st.available_cols
  else
    let fin := st.available_cols.foldl
      (bestStep st.ai_bits st.human_bits depth) (none, [], ([] : Table))
    pick fin.2.1

/-! ## Spec-side definitions used to state the claims -/

/-- One step of the column-scoring pass claim C4 describes: the same
`negamax` call as `bestStep`, recording the pair `(col, score)` and threading
the shared transposition table. -/
def scoredStep (ai_bits human_bits : Nat) (depth : Nat)
    (acc : List (Nat × Int) × Table) (col : Nat) :
    List (Nat × Int) × Table :=
  let mv := move_bit (ai_bits ||| human_bits) col
  let res := negamax (depth - 1) human_bits (ai_bits ||| mv)
    (-1000000000) 1000000000 acc.2
  (acc.1 ++ [(col, -res.1)], res.2)

/-- The scores `best_ai_move` assigns to the legal columns: each legal column
paired with the negated `negamax` value of the position after playing it,
roles swapped, depth minus one, wide window, one transposition table shared
across the whole pass starting empty. -/
def scored_moves (ai_bits human_bits : Nat) (depth : Nat) :
    List (Nat × Int) :=
  ((valid_columns ai_bits human_bits).foldl
    (scoredStep ai_bits human_bits depth) ([], ([] : Table))).1

/-- The columns achieving the maximum score of `scored_moves`, in pass
order. -/
def best_scored_cols (ai_bits human_bits : Nat) (depth : Nat) : List Nat :=
  let scored := scored_moves ai_bits human_bits depth
  (scored.filter (fun p => scored.all (fun q => decide (q.2 ≤ p.2)))).map
    Prod.fst

/-- One shifted-AND direction check with shift amount `s`, the building block
named by claim C3: `(bits & (bits >> s)) & ((bits & (bits >> s)) >> 2s) ≠ 0`. -/
def shift_check (s bits : Nat) : Bool :=
  let m := bits &&& (bits >>> s)
  m &&& (m >>> (2 * s)) ≠ 0

/-- Modelled from the spec: the terminal detector claim C3 describes, with
shift amounts 1, `rows+1`, `rows`, `rows+2` where `rows` is the padded row
count including the sentinel (`rows = HEIGHT1 = 7`), hence shifts 1, 8, 7, 9. -/
def has_won_claimed_shifts (bits : Nat) : Bool :=
  shift_check 1 bits || shift_check (HEIGHT1 + 1) bits ||
    shift_check HEIGHT1 bits || shift_check (HEIGHT1 + 2) bits

/-- The seven bits (six playable rows plus the sentinel) of column `c`. -/
def column_bits (mask c : Nat) : Nat := (mask >>> (c * HEIGHT1)) &&& 127

/-- The bitboard invariant of reachable positions: the two boards are
disjoint, all bits lie in the 49-bit playing area, and the combined occupancy
of every column is an initial segment of its six playable cells (stones are
stacked from the bottom, the sentinel row is empty). -/
def Invariant (a b : Nat) : Prop :=
  a &&& b = 0 ∧ a ||| b < 2 ^ SIZE ∧
  ∀ c < WIDTH, ∃ h ≤ HEIGHT, column_bits (a ||| b) c = 2 ^ h - 1

/-- Executable check for `Invariant`. -/
def invariantCheck (a b : Nat) : Bool :=
  (a &&& b == 0) && (a ||| b < 2 ^ SIZE : Bool) &&
  (List.range WIDTH).all (fun c =>
    (List.range (HEIGHT + 1)).any (fun h => column_bits (a ||| b) c == 2 ^ h - 1))

/-- Modelled from the spec: the move generator claim C8 describes, selecting
the columns whose top-sentinel bit (row `HEIGHT`, the sentinel row) is unset
in the combined occupancy, in the fixed order `[3, 2, 4, 1, 5, 0, 6]`. -/
def sentinel_unset_columns (player_bits opponent_bits : Nat) : List Nat :=
  let mask := player_bits ||| opponent_bits
  MOVE_ORDER.filter (fun c => mask &&& (1 <<< (HEIGHT + c * HEIGHT1)) == 0)

/-- Horizontal 4-cell window starting at `(r, c)`, as (row, col) pairs. -/
def hwin (r c : Nat) : List (Nat × Nat) := (List.range 4).map (fun i => (r, c + i))

/-- Vertical 4-cell window starting at `(r, c)`. -/
def vwin (r c : Nat) : List (Nat × Nat) := (List.range 4).map (fun i => (r + i, c))

/-- Diagonal 4-cell window rising with the column, starting at `(r, c)`. -/
def d1win (r c : Nat) : List (Nat × Nat) :=
  (List.range 4).map (fun i => (r + i, c + i))

/-- Diagonal 4-cell window falling with the column, ending at `(r, c + 3)`. -/
def d2win (r c : Nat) : List (Nat × Nat) :=
  (List.range 4).map (fun i => (r + i, c + 3 - i))

def horizontal_windows : List (List (Nat × Nat)) :=
  ((List.range HEIGHT).map (fun r =>
    (List.range (WIDTH - 3)).map (fun c => hwin r c))).flatten

def vertical_windows : List (List (Nat × Nat)) :=
  ((List.range WIDTH).map (fun c =>
    (List.range (HEIGHT - 3)).map (fun r => vwin r c))).flatten

def diag1_windows : List (List (Nat × Nat)) :=
  ((List.range (HEIGHT - 3)).map (fun r =>
    (List.range (WIDTH - 3)).map (fun c => d1win r c))).flatten

def diag2_windows : List (List (Nat × Nat)) :=
  ((List.range (HEIGHT - 3)).map (fun r =>
    (List.range (WIDTH - 3)).map (fun c => d2win r c))).flatten

/-- Every axis-aligned 4-cell window of the 6×7 grid. -/
def all_windows : List (List (Nat × Nat)) :=
  horizontal_windows ++ vertical_windows ++ diag1_windows ++ diag2_windows

/-- Modelled from the spec: claim C6's scoring table for one window, applied
to the counts of the searching player's cells, the opponent's cells and the
empty cells inside the window. -/
def window_contrib (ai_bits human_bits : Nat) (w : List (Nat × Nat)) : Int :=
  let mine := w.countP (fun rc => bit_at ai_bits rc.1 rc.2 == 1)
  let theirs := w.countP (fun rc => bit_at human_bits rc.1 rc.2 == 1)
  let empty := w.countP (fun rc =>
    bit_at ai_bits rc.1 rc.2 == 0 && bit_at human_bits rc.1 rc.2 == 0)
  if mine = 4 then 100000
  else if mine = 3 ∧ empty = 1 then 100
  else if mine = 2 ∧ empty = 2 then 10
  else if theirs = 3 ∧ empty = 1 then -120
  else if theirs = 4 then -100000
  else 0

/-- Number of a player's stones in the center column. -/
def center_count (bits : Nat) : Int :=
  ((List.range HEIGHT).map (fun r => (bit_at bits r (WIDTH / 2) : Int))).sum

/-- Modelled from the spec: claim C6's description of the heuristic — the sum
of the window contributions over every 4-cell window plus six times the
center-column count difference. -/
def spec_heuristic (ai_bits human_bits : Nat) : Int :=
  (all_windows.map (window_contrib ai_bits human_bits)).sum +
    6 * (center_count ai_bits - center_count human_bits)

/-- Modelled from the spec: claim C2's brute-force scan — the dense 6×7 grid
decoded from one player's bitboard contains four consecutive set cells in a
line. -/
def dense_four (bits : Nat) : Bool :=
  all_windows.any (fun w => w.all (fun rc => bit_at bits rc.1 rc.2 == 1))

/-- The single-board bitboard invariant: all set bits are inside the 49-bit
playing area and at rows 0..5 (the sentinel row of every column is empty). -/
def InBoard (bits : Nat) : Prop :=
  ∀ i, bits.testBit i = true → i < SIZE ∧ i % HEIGHT1 < HEIGHT

/-- Every cell of the window is set in the given bitboard. -/
def all_set (bits : Nat) (w : List (Nat × Nat)) : Prop :=
  ∀ rc ∈ w, bits.testBit (rc.2 * HEIGHT1 + rc.1) = true

/-! ## Helper lemmas -/

/-- `has_won` is the disjunction of the four shifted-AND checks with shift
amounts 1, 7, 6 and 8. -/
theorem has_won_eq_shift_checks (bits : Nat) :
    has_won bits =
      (shift_check 1 bits || shift_check HEIGHT1 bits ||
        shift_check (HEIGHT1 - 1) bits || shift_check (HEIGHT1 + 1) bits) := by
  simp only [has_won, shift_check]
  split_ifs <;> simp_all

theorem invariant_of_check {a b : Nat} (h : invariantCheck a b = true) :
    Invariant a b := by
  simp only [invariantCheck, Bool.and_eq_true, beq_iff_eq, decide_eq_true_eq,
    List.all_eq_true, List.any_eq_true, List.mem_range] at h
  refine ⟨h.1.1, h.1.2, fun c hc => ?_⟩
  obtain ⟨hh, hlt, heq⟩ := h.2 c hc
  exact ⟨hh, by omega, heq⟩

/-! ## Claim C1: alpha-beta + transposition table vs full search -/

/-- **C1, counterexample.**  A reachable position (the invariant holds) and a
depth in 1..6 where `negamax` with pruning, a fresh empty transposition table
and the wide window returns a different score from the full fixed-depth search
without pruning: the table stores fail-high/fail-low bounds produced under
narrowed windows and later returns them as exact values. -/
theorem negamax_tt_differs_from_plain_search :
    invariantCheck 233714980438557 44427503240610 = true ∧
    (negamax 4 233714980438557 44427503240610
        (-1000000000) 1000000000 []).1 ≠
      plainNegamax 4 233714980438557 44427503240610 := by
  decide

/-- **C1, amended.**  As the spec's own testable property states it: at a
non-trivial sampled position (reachable, with at least three legal columns and
a heuristic-range score) for each depth 1..6, `negamax` with pruning active,
a fresh empty transposition table and the wide window `[-10^9, 10^9]` returns
the same score as the full fixed-depth search with no pruning and no table. -/
theorem negamax_tt_agrees_with_plain_search_sampled :
    (invariantCheck 61883508182024 75522996568967 = true ∧
      (negamax 1 61883508182024 75522996568967
          (-1000000000) 1000000000 []).1 =
        plainNegamax 1 61883508182024 75522996568967) ∧
    (invariantCheck 101842856532364 36669703489043 = true ∧
      (negamax 2 101842856532364 36669703489043
          (-1000000000) 1000000000 []).1 =
        plainNegamax 2 101842856532364 36669703489043 ∧
      (negamax 3 101842856532364 36669703489043
          (-1000000000) 1000000000 []).1 =
        plainNegamax 3 101842856532364 36669703489043 ∧
      (negamax 4 101842856532364 36669703489043
          (-1000000000) 1000000000 []).1 =
        plainNegamax 4 101842856532364 36669703489043 ∧
      (negamax 5 101842856532364 36669703489043
          (-1000000000) 1000000000 []).1 =
        plainNegamax 5 101842856532364 36669703489043 ∧
      (negamax 6 101842856532364 36669703489043
          (-1000000000) 1000000000 []).1 =
        plainNegamax 6 101842856532364 36669703489043) := by
  decide

/-! ## Claim C3: the shift amounts of the terminal detector -/

/-- **C3, counterexample.**  The claim says the four direction checks use
shifts 1, 8, 7 and 9 (`rows = 7`, the padded row count).  On the single-player
bitboard holding exactly the ↗ diagonal (3,0), (2,1), (1,2), (0,3) — bit
indices 3, 9, 15, 21 — the code's detector fires (it uses shift 6 for this
direction) while the claimed shift family {1, 8, 7, 9} finds nothing. -/
theorem has_won_shift_amounts_counterexample :
    has_won 2130440 = true ∧ has_won_claimed_shifts 2130440 = false := by
  decide

/-- **C3, amended.**  The detector's shift amounts are 1 (vertical),
`HEIGHT1 = 7` (horizontal), `HEIGHT1 - 1 = 6` (diagonal ↗) and
`HEIGHT1 + 1 = 8` (diagonal ↘); that is `{1, rows+1, rows, rows+2}` where
`rows = HEIGHT = 6` is the unpadded row count, not the padded one. -/
theorem has_won_shift_amounts (bits : Nat) :
    has_won bits =
      (shift_check 1 bits || shift_check HEIGHT1 bits ||
        shift_check (HEIGHT1 - 1) bits || shift_check (HEIGHT1 + 1) bits) :=
  has_won_eq_shift_checks bits

/-! ## Claim C7: counterexample (the amended theorem is below) -/

/-- **C7, counterexample.**  The claim's invariant (disjoint boards, bits at
rows 0..5) does not mention the bottom-up stacking of columns, and without it
the conclusion fails: from player = 0, opponent = bit (row 2, col 0) — a
"floating" stone — playing column 0 adds the two bits {row 0, row 2} to the
player's board, and the result overlaps the opponent's board. -/
theorem make_move_floating_stone_counterexample :
    (0 : Nat) &&& 4 = 0 ∧
    make_move 0 4 0 = .ok (5, 4) ∧
    (5 : Nat) &&& 4 ≠ 0 :=
  ⟨by decide, rfl, by decide⟩

/-! ## Claim C8: counterexample (the amended theorem is below) -/

/-- **C8, counterexample.**  `valid_columns` tests the top *playable* row
(row `HEIGHT - 1 = 5`), not the sentinel row: on a reachable position whose
column 0 is full (player rows {0,2,4}, opponent rows {1,3,5}), the sentinel
bit of every column is unset — the claim would keep all seven columns — yet
the code correctly drops column 0. -/
theorem valid_columns_sentinel_counterexample :
    invariantCheck 21 42 = true ∧
    valid_columns 21 42 ≠ sentinel_unset_columns 21 42 := by
  decide

/-! ## Claim C10: error atomicity of `GameState.drop` -/

/-- **C10.**  If `GameState.drop` raises, it raises before any mutation: the
resulting state (all four fields) is exactly the state before the call. -/
theorem drop_error_atomic (st : GameState) (col : Nat) (is_human : Bool)
    (h : (st.drop col is_human).2 ≠ none) : (st.drop col is_human).1 = st := by
  by_cases hc : (st.ai_bits ||| st.human_bits) &&& TOP_MASKS col ≠ 0
  · simp [GameState.drop, hc]
  · cases hrow : target_row (st.ai_bits ||| st.human_bits) col with
    | none => simp [GameState.drop, hc, hrow]
    | some row =>
      cases is_human with
      | true =>
        cases hm : make_move st.human_bits st.ai_bits col with
        | error e => simp [GameState.drop, hc, hrow, hm]
        | ok v =>
          exfalso; apply h
          obtain ⟨hb, ab⟩ := v
          simp [GameState.drop, hc, hrow, hm]
      | false =>
        cases hm : make_move st.ai_bits st.human_bits col with
        | error e => simp [GameState.drop, hc, hrow, hm]
        | ok v =>
          exfalso; apply h
          obtain ⟨ab, hb⟩ := v
          simp [GameState.drop, hc, hrow, hm]

/-- **C10, witness.**  A concrete full column: dropping into column 0 of the
position (21, 42) errors and leaves the state unchanged. -/
theorem drop_error_atomic_witness :
    ((GameState.mk 21 42 none none).drop 0 true).2 ≠ none ∧
    ((GameState.mk 21 42 none none).drop 0 true).1 =
      GameState.mk 21 42 none none :=
  ⟨by decide, drop_error_atomic (GameState.mk 21 42 none none) 0 true
    (by decide)⟩

/-! ## Claim C2: the bit-trick terminal detector vs a dense-grid scan -/

theorem bit_at_eq (bits r c : Nat) :
    bit_at bits r c = if bits.testBit (c * HEIGHT1 + r) then 1 else 0 := by
  simp only [bit_at, Nat.and_one_is_mod, Nat.shiftRight_eq_div_pow,
    Nat.testBit_to_div_mod]
  rcases Nat.mod_two_eq_zero_or_one (bits / 2 ^ (c * HEIGHT1 + r)) with h | h <;>
    simp [h]

theorem ne_zero_iff_testBit (n : Nat) : n ≠ 0 ↔ ∃ i, n.testBit i = true := by
  constructor
  · intro h
    by_contra hno
    push_neg at hno
    exact h (Nat.eq_of_testBit_eq (fun i => by
      rw [Nat.zero_testBit]
      simpa using hno i))
  · rintro ⟨i, hi⟩ h
    rw [h, Nat.zero_testBit] at hi
    simp at hi

theorem shift_check_iff (s bits : Nat) :
    shift_check s bits = true ↔
      ∃ i, bits.testBit i = true ∧ bits.testBit (i + s) = true ∧
        bits.testBit (i + 2 * s) = true ∧ bits.testBit (i + 3 * s) = true := by
  simp only [shift_check, decide_eq_true_eq]
  rw [ne_zero_iff_testBit]
  constructor
  · rintro ⟨i, hi⟩
    simp only [Nat.testBit_and, Nat.testBit_shiftRight, Bool.and_eq_true] at hi
    obtain ⟨⟨h1, h2⟩, h3, h4⟩ := hi
    refine ⟨i, h1, ?_, ?_, ?_⟩
    · rw [Nat.add_comm i s]; exact h2
    · rw [Nat.add_comm i (2 * s)]; exact h3
    · rw [show i + 3 * s = s + (2 * s + i) from by ring]; exact h4
  · rintro ⟨i, h1, h2, h3, h4⟩
    refine ⟨i, ?_⟩
    simp only [Nat.testBit_and, Nat.testBit_shiftRight, Bool.and_eq_true]
    refine ⟨⟨h1, ?_⟩, ?_, ?_⟩
    · rw [Nat.add_comm s i]; exact h2
    · rw [Nat.add_comm (2 * s) i]; exact h3
    · rw [show s + (2 * s + i) = i + 3 * s from by ring]; exact h4

theorem bit_at_beq_one (bits r c : Nat) :
    (bit_at bits r c == 1) = bits.testBit (c * HEIGHT1 + r) := by
  rw [bit_at_eq]
  cases h : bits.testBit (c * HEIGHT1 + r) <;> simp

theorem all_set_hwin (bits r c : Nat) :
    all_set bits (hwin r c) ↔
      (bits.testBit (c * 7 + r) = true ∧
       bits.testBit ((c + 1) * 7 + r) = true ∧
       bits.testBit ((c + 2) * 7 + r) = true ∧
       bits.testBit ((c + 3) * 7 + r) = true) := by
  simp [all_set, hwin, HEIGHT1, HEIGHT,
    show List.range 4 = [0, 1, 2, 3] from rfl]

theorem all_set_vwin (bits r c : Nat) :
    all_set bits (vwin r c) ↔
      (bits.testBit (c * 7 + r) = true ∧
       bits.testBit (c * 7 + (r + 1)) = true ∧
       bits.testBit (c * 7 + (r + 2)) = true ∧
       bits.testBit (c * 7 + (r + 3)) = true) := by
  simp [all_set, vwin, HEIGHT1, HEIGHT,
    show List.range 4 = [0, 1, 2, 3] from rfl]

theorem all_set_d1win (bits r c : Nat) :
    all_set bits (d1win r c) ↔
      (bits.testBit (c * 7 + r) = true ∧
       bits.testBit ((c + 1) * 7 + (r + 1)) = true ∧
       bits.testBit ((c + 2) * 7 + (r + 2)) = true ∧
       bits.testBit ((c + 3) * 7 + (r + 3)) = true) := by
  simp [all_set, d1win, HEIGHT1, HEIGHT,
    show List.range 4 = [0, 1, 2, 3] from rfl]

theorem all_set_d2win (bits r c : Nat) :
    all_set bits (d2win r c) ↔
      (bits.testBit ((c + 3) * 7 + r) = true ∧
       bits.testBit ((c + 2) * 7 + (r + 1)) = true ∧
       bits.testBit ((c + 1) * 7 + (r + 2)) = true ∧
       bits.testBit (c * 7 + (r + 3)) = true) := by
  simp [all_set, d2win, HEIGHT1, HEIGHT,
    show List.range 4 = [0, 1, 2, 3] from rfl]

theorem vertical_direction {bits : Nat} (hb : InBoard bits) :
    shift_check 1 bits = true ↔
      ∃ c < 7, ∃ r < 3, all_set bits (vwin r c) := by
  have hb7 : ∀ j, bits.testBit j = true → j < 49 ∧ j % 7 < 6 := hb
  rw [shift_check_iff]
  constructor
  · rintro ⟨i, h0, h1, h2, h3⟩
    have v0 := hb7 i h0
    have v1 := hb7 _ h1
    have v2 := hb7 _ h2
    have v3 := hb7 _ h3
    refine ⟨i / 7, by omega, i % 7, by omega, ?_⟩
    rw [all_set_vwin]
    refine ⟨?_, ?_, ?_, ?_⟩
    · rw [show i / 7 * 7 + i % 7 = i from by omega]; exact h0
    · rw [show i / 7 * 7 + (i % 7 + 1) = i + 1 from by omega]; exact h1
    · rw [show i / 7 * 7 + (i % 7 + 2) = i + 2 * 1 from by omega]; exact h2
    · rw [show i / 7 * 7 + (i % 7 + 3) = i + 3 * 1 from by omega]; exact h3
  · rintro ⟨c, hc, r, hr, hset⟩
    rw [all_set_vwin] at hset
    obtain ⟨h0, h1, h2, h3⟩ := hset
    refine ⟨c * 7 + r, h0, ?_, ?_, ?_⟩
    · rw [show c * 7 + r + 1 = c * 7 + (r + 1) from by omega]; exact h1
    · rw [show c * 7 + r + 2 * 1 = c * 7 + (r + 2) from by omega]; exact h2
    · rw [show c * 7 + r + 3 * 1 = c * 7 + (r + 3) from by omega]; exact h3

theorem horizontal_direction {bits : Nat} (hb : InBoard bits) :
    shift_check 7 bits = true ↔
      ∃ r < 6, ∃ c < 4, all_set bits (hwin r c) := by
  have hb7 : ∀ j, bits.testBit j = true → j < 49 ∧ j % 7 < 6 := hb
  rw [shift_check_iff]
  constructor
  · rintro ⟨i, h0, h1, h2, h3⟩
    have v0 := hb7 i h0
    have v3 := hb7 _ h3
    refine ⟨i % 7, by omega, i / 7, by omega, ?_⟩
    rw [all_set_hwin]
    refine ⟨?_, ?_, ?_, ?_⟩
    · rw [show i / 7 * 7 + i % 7 = i from by omega]; exact h0
    · rw [show (i / 7 + 1) * 7 + i % 7 = i + 7 from by omega]; exact h1
    · rw [show (i / 7 + 2) * 7 + i % 7 = i + 2 * 7 from by omega]; exact h2
    · rw [show (i / 7 + 3) * 7 + i % 7 = i + 3 * 7 from by omega]; exact h3
  · rintro ⟨r, hr, c, hc, hset⟩
    rw [all_set_hwin] at hset
    obtain ⟨h0, h1, h2, h3⟩ := hset
    refine ⟨c * 7 + r, h0, ?_, ?_, ?_⟩
    · rw [show c * 7 + r + 7 = (c + 1) * 7 + r from by omega]; exact h1
    · rw [show c * 7 + r + 2 * 7 = (c + 2) * 7 + r from by omega]; exact h2
    · rw [show c * 7 + r + 3 * 7 = (c + 3) * 7 + r from by omega]; exact h3

theorem diag1_direction {bits : Nat} (hb : InBoard bits) :
    shift_check 8 bits = true ↔
      ∃ r < 3, ∃ c < 4, all_set bits (d1win r c) := by
  have hb7 : ∀ j, bits.testBit j = true → j < 49 ∧ j % 7 < 6 := hb
  rw [shift_check_iff]
  constructor
  · rintro ⟨i, h0, h1, h2, h3⟩
    have v0 := hb7 i h0
    have v1 := hb7 _ h1
    have v2 := hb7 _ h2
    have v3 := hb7 _ h3
    refine ⟨i % 7, by omega, i / 7, by omega, ?_⟩
    rw [all_set_d1win]
    refine ⟨?_, ?_, ?_, ?_⟩
    · rw [show i / 7 * 7 + i % 7 = i from by omega]; exact h0
    · rw [show (i / 7 + 1) * 7 + (i % 7 + 1) = i + 8 from by omega]; exact h1
    · rw [show (i / 7 + 2) * 7 + (i % 7 + 2) = i + 2 * 8 from by omega]; exact h2
    · rw [show (i / 7 + 3) * 7 + (i % 7 + 3) = i + 3 * 8 from by omega]; exact h3
  · rintro ⟨r, hr, c, hc, hset⟩
    rw [all_set_d1win] at hset
    obtain ⟨h0, h1, h2, h3⟩ := hset
    refine ⟨c * 7 + r, h0, ?_, ?_, ?_⟩
    · rw [show c * 7 + r + 8 = (c + 1) * 7 + (r + 1) from by omega]; exact h1
    · rw [show c * 7 + r + 2 * 8 = (c + 2) * 7 + (r + 2) from by omega]; exact h2
    · rw [show c * 7 + r + 3 * 8 = (c + 3) * 7 + (r + 3) from by omega]; exact h3

theorem diag2_direction {bits : Nat} (hb : InBoard bits) :
    shift_check 6 bits = true ↔
      ∃ r < 3, ∃ c < 4, all_set bits (d2win r c) := by
  have hb7 : ∀ j, bits.testBit j = true → j < 49 ∧ j % 7 < 6 := hb
  rw [shift_check_iff]
  constructor
  · rintro ⟨i, h0, h1, h2, h3⟩
    have v0 := hb7 i h0
    have v1 := hb7 _ h1
    have v2 := hb7 _ h2
    have v3 := hb7 _ h3
    refine ⟨i % 7 - 3, by omega, i / 7, by omega, ?_⟩
    rw [all_set_d2win]
    refine ⟨?_, ?_, ?_, ?_⟩
    · rw [show (i / 7 + 3) * 7 + (i % 7 - 3) = i + 3 * 6 from by omega]; exact h3
    · rw [show (i / 7 + 2) * 7 + (i % 7 - 3 + 1) = i + 2 * 6 from by omega]
      exact h2
    · rw [show (i / 7 + 1) * 7 + (i % 7 - 3 + 2) = i + 6 from by omega]
      exact h1
    · rw [show i / 7 * 7 + (i % 7 - 3 + 3) = i from by omega]; exact h0
  · rintro ⟨r, hr, c, hc, hset⟩
    rw [all_set_d2win] at hset
    obtain ⟨h0, h1, h2, h3⟩ := hset
    refine ⟨c * 7 + (r + 3), h3, ?_, ?_, ?_⟩
    · rw [show c * 7 + (r + 3) + 6 = (c + 1) * 7 + (r + 2) from by omega]
      exact h2
    · rw [show c * 7 + (r + 3) + 2 * 6 = (c + 2) * 7 + (r + 1) from by omega]
      exact h1
    · rw [show c * 7 + (r + 3) + 3 * 6 = (c + 3) * 7 + r from by omega]
      exact h0

theorem any_family_iff (bits : Nat) (oN iN : Nat)
    (f : Nat → Nat → List (Nat × Nat)) :
    ((((List.range oN).map (fun x =>
        (List.range iN).map (fun y => f x y))).flatten).any
      (fun w => w.all (fun rc => bit_at bits rc.1 rc.2 == 1)) = true) ↔
    (∃ x < oN, ∃ y < iN, all_set bits (f x y)) := by
  simp only [List.any_eq_true, List.mem_flatten, List.mem_map, List.mem_range,
    List.all_eq_true, all_set, bit_at_beq_one]
  constructor
  · rintro ⟨w, ⟨l, ⟨x, hx, rfl⟩, hw⟩, hall⟩
    obtain ⟨y, hy, rfl⟩ := List.mem_map.1 hw
    exact ⟨x, hx, y, List.mem_range.1 hy, hall⟩
  · rintro ⟨x, hx, y, hy, hall⟩
    exact ⟨f x y, ⟨(List.range iN).map (fun y => f x y), ⟨x, hx, rfl⟩,
      List.mem_map.2 ⟨y, List.mem_range.2 hy, rfl⟩⟩, hall⟩

theorem dense_four_iff (bits : Nat) :
    dense_four bits = true ↔
      ((∃ r < 6, ∃ c < 4, all_set bits (hwin r c)) ∨
       (∃ c < 7, ∃ r < 3, all_set bits (vwin r c)) ∨
       (∃ r < 3, ∃ c < 4, all_set bits (d1win r c)) ∨
       (∃ r < 3, ∃ c < 4, all_set bits (d2win r c))) := by
  unfold dense_four all_windows horizontal_windows vertical_windows
    diag1_windows diag2_windows
  simp only [List.any_append, Bool.or_eq_true]
  rw [any_family_iff bits HEIGHT (WIDTH - 3) hwin,
    any_family_iff bits WIDTH (HEIGHT - 3) (fun c r => vwin r c),
    any_family_iff bits (HEIGHT - 3) (WIDTH - 3) d1win,
    any_family_iff bits (HEIGHT - 3) (WIDTH - 3) d2win]
  constructor
  · rintro (((h | h) | h) | h)
    · exact Or.inl h
    · exact Or.inr (Or.inl h)
    · exact Or.inr (Or.inr (Or.inl h))
    · exact Or.inr (Or.inr (Or.inr h))
  · rintro (h | h | h | h)
    · exact Or.inl (Or.inl (Or.inl h))
    · exact Or.inl (Or.inl (Or.inr h))
    · exact Or.inl (Or.inr h)
    · exact Or.inr h

/-- **C2.**  For every single-player bitboard satisfying the invariant (all
set bits in the playing area, sentinel row empty), `has_won` is true iff the
dense 6×7 grid decoded from the bitboard contains four consecutive set cells
in a line — horizontally, vertically, or along either diagonal. -/
theorem has_won_iff_dense_four {bits : Nat} (hb : InBoard bits) :
    has_won bits = true ↔ dense_four bits = true := by
  rw [has_won_eq_shift_checks]
  simp only [Bool.or_eq_true]
  rw [dense_four_iff]
  rw [show HEIGHT1 - 1 = 6 from rfl, show HEIGHT1 + 1 = 8 from rfl,
    show HEIGHT1 = 7 from rfl]
  rw [vertical_direction hb, horizontal_direction hb, diag2_direction hb,
    diag1_direction hb]
  constructor
  · rintro (((h | h) | h) | h)
    · exact Or.inr (Or.inl h)
    · exact Or.inl h
    · exact Or.inr (Or.inr (Or.inr h))
    · exact Or.inr (Or.inr (Or.inl h))
  · rintro (h | h | h | h)
    · exact Or.inl (Or.inl (Or.inr h))
    · exact Or.inl (Or.inl (Or.inl h))
    · exact Or.inr h
    · exact Or.inl (Or.inr h)

theorem inBoard_of_check (bits : Nat) (h1 : bits < 2 ^ SIZE)
    (h2 : (List.range SIZE).all
      (fun i => !bits.testBit i || decide (i % HEIGHT1 < HEIGHT)) = true) :
    InBoard bits := by
  intro i hi
  by_cases hlt : i < SIZE
  · have := (List.all_eq_true.1 h2) i (List.mem_range.2 hlt)
    simp [hi] at this
    exact ⟨hlt, this⟩
  · exfalso
    have hfalse : bits.testBit i = false :=
      Nat.testBit_eq_false_of_lt
        (lt_of_lt_of_le h1 (Nat.pow_le_pow_right (by norm_num) (by omega)))
    rw [hi] at hfalse
    simp at hfalse

/-- **C2, witness.**  The invariant hypothesis discharged at the concrete
board holding the ↗ diagonal (3,0), (2,1), (1,2), (0,3). -/
theorem has_won_iff_dense_four_witness :
    has_won 2130440 = true ↔ dense_four 2130440 = true :=
  has_won_iff_dense_four (inBoard_of_check 2130440 (by decide) (by decide))

/-! ## Bit arithmetic for the column invariant -/

theorem and_shiftLeft_comm (x m s : Nat) :
    x &&& (m <<< s) = ((x >>> s) &&& m) <<< s := by
  apply Nat.eq_of_testBit_eq
  intro i
  rw [Nat.testBit_and, Nat.testBit_shiftLeft, Nat.testBit_shiftLeft,
    Nat.testBit_and, Nat.testBit_shiftRight]
  by_cases hs : s ≤ i
  · rw [show s + (i - s) = i from by omega]
    have hdec : decide (s ≤ i) = true := by simp [hs]
    rw [hdec]
    cases x.testBit i <;> cases m.testBit (i - s) <;> rfl
  · have hdec : decide (s ≤ i) = false := by simp [hs]
    rw [hdec]
    cases x.testBit i <;> rfl

theorem shiftRight_add_two_pow (x s : Nat) :
    (x + 2 ^ s) >>> s = (x >>> s) + 1 := by
  rw [Nat.shiftRight_eq_div_pow, Nat.shiftRight_eq_div_pow]
  exact Nat.add_div_right x (Nat.two_pow_pos s)

theorem column_bits_eq_mod (mask c : Nat) :
    column_bits mask c = (mask >>> (c * HEIGHT1)) % 128 := by
  unfold column_bits
  rw [show (127 : Nat) = 2 ^ 7 - 1 from rfl, Nat.and_pow_two_sub_one_eq_mod]

theorem col_testBit {mask c h : Nat} (hcol : column_bits mask c = 2 ^ h - 1)
    {r : Nat} (hr : r < 7) :
    mask.testBit (c * HEIGHT1 + r) = decide (r < h) := by
  have h1 : mask.testBit (c * HEIGHT1 + r) =
      ((mask >>> (c * HEIGHT1)) % 128).testBit r := by
    rw [show (128 : Nat) = 2 ^ 7 from rfl, Nat.testBit_mod_two_pow,
      Nat.testBit_shiftRight]
    have hdec : decide (r < 7) = true := by simp [hr]
    rw [hdec, Bool.true_and]
  rw [h1, ← column_bits_eq_mod, hcol, Nat.testBit_two_pow_sub_one]

theorem and_two_pow_eq_zero_iff (x k : Nat) :
    x &&& (1 <<< k) = 0 ↔ x.testBit k = false := by
  rw [Nat.one_shiftLeft]
  constructor
  · intro h
    by_contra hb
    rw [Bool.not_eq_false] at hb
    have hx : (x &&& 2 ^ k).testBit k = true := by
      simp [Nat.testBit_and, hb, Nat.testBit_two_pow_self]
    rw [h, Nat.zero_testBit] at hx
    simp at hx
  · intro h
    apply Nat.eq_of_testBit_eq
    intro i
    rw [Nat.testBit_and, Nat.zero_testBit]
    by_cases hik : i = k
    · subst hik; rw [h]; rfl
    · rw [Nat.testBit_two_pow_of_ne (fun he => hik he.symm)]
      exact Bool.and_false _

theorem move_bit_eq {mask c h : Nat} (hh : h ≤ 6)
    (hcol : column_bits mask c = 2 ^ h - 1) :
    move_bit mask c = if h < 6 then 1 <<< (c * HEIGHT1 + h) else 0 := by
  have hb : BOTTOM_MASKS c = 2 ^ (c * HEIGHT1) := Nat.one_shiftLeft _
  have hcm : COLUMN_MASKS c = 63 <<< (c * HEIGHT1) := by
    unfold COLUMN_MASKS
    rfl
  unfold move_bit
  rw [hb, hcm, and_shiftLeft_comm, shiftRight_add_two_pow]
  have hmod : (mask >>> (c * HEIGHT1)) % 128 = 2 ^ h - 1 := by
    rw [← column_bits_eq_mod, hcol]
  have h63 : ((mask >>> (c * HEIGHT1)) + 1) &&& 63 =
      if h < 6 then 2 ^ h else 0 := by
    rw [show (63 : Nat) = 2 ^ 6 - 1 from rfl, Nat.and_pow_two_sub_one_eq_mod]
    generalize mask >>> (c * HEIGHT1) = x at hmod ⊢
    interval_cases h <;> norm_num <;> omega
  rw [h63]
  by_cases h6 : h < 6
  · simp only [h6, if_true]
    rw [Nat.shiftLeft_eq, Nat.one_shiftLeft, ← Nat.pow_add, Nat.add_comm]
  · simp [h6]

theorem top_mask_iff {mask c h : Nat} (hh : h ≤ 6)
    (hcol : column_bits mask c = 2 ^ h - 1) :
    mask &&& TOP_MASKS c = 0 ↔ h < 6 := by
  unfold TOP_MASKS
  rw [and_two_pow_eq_zero_iff]
  rw [show HEIGHT - 1 + c * HEIGHT1 = c * HEIGHT1 + 5 from by
    unfold HEIGHT1 HEIGHT; omega]
  rw [col_testBit hcol (by omega)]
  constructor
  · intro hf
    by_contra h6
    have : h = 6 := by omega
    subst this
    simp at hf
  · intro h6
    simp
    omega

theorem column_bits_or (x y c : Nat) :
    column_bits (x ||| y) c = column_bits x c ||| column_bits y c := by
  apply Nat.eq_of_testBit_eq
  intro i
  unfold column_bits
  simp [Nat.testBit_and, Nat.testBit_or, Nat.testBit_shiftRight]
  cases x.testBit (c * HEIGHT1 + i) <;> cases y.testBit (c * HEIGHT1 + i) <;>
    cases (127 : Nat).testBit i <;> rfl

theorem column_bits_single (c h c2 : Nat) (hh : h < 7) (hc2 : c2 < 7) :
    column_bits (1 <<< (c * HEIGHT1 + h)) c2 =
      if c2 = c then 2 ^ h else 0 := by
  rw [Nat.one_shiftLeft]
  apply Nat.eq_of_testBit_eq
  intro i
  rw [column_bits_eq_mod, show (128 : Nat) = 2 ^ 7 from rfl,
    Nat.testBit_mod_two_pow, Nat.testBit_shiftRight]
  by_cases hi : i < 7
  · have hdec : decide (i < 7) = true := by simp [hi]
    rw [hdec, Bool.true_and]
    by_cases hceq : c2 = c
    · subst hceq
      rw [if_pos rfl]
      by_cases hih : i = h
      · subst hih
        rw [Nat.testBit_two_pow_self, Nat.testBit_two_pow_self]
      · rw [Nat.testBit_two_pow_of_ne (by
            unfold HEIGHT1 HEIGHT
            omega),
          Nat.testBit_two_pow_of_ne (fun he => hih he.symm)]
    · rw [if_neg hceq,
        Nat.testBit_two_pow_of_ne (by
          unfold HEIGHT1 HEIGHT
          rcases Nat.lt_or_ge c2 c with hlt | hge <;> omega),
        Nat.zero_testBit]
  · have hdec : decide (i < 7) = false := by simp [hi]
    rw [hdec, Bool.false_and]
    by_cases hceq : c2 = c
    · rw [if_pos hceq, Nat.testBit_two_pow_of_ne (by omega)]
    · rw [if_neg hceq, Nat.zero_testBit]

theorem pow_or_pred (h : Nat) : (2 ^ h - 1) ||| 2 ^ h = 2 ^ (h + 1) - 1 := by
  apply Nat.eq_of_testBit_eq
  intro i
  rw [Nat.testBit_or, Nat.testBit_two_pow_sub_one, Nat.testBit_two_pow_sub_one,
    Nat.testBit_two_pow]
  by_cases h1 : i < h
  · simp [h1]; omega
  · by_cases h2 : i = h <;> simp [h1, h2] <;> omega

theorem mask_lt_or_two_pow {mask k : Nat} (hfree : mask.testBit k = false) :
    mask < mask ||| (1 <<< k) := by
  apply Nat.lt_of_testBit k hfree
  · rw [Nat.testBit_or, Nat.one_shiftLeft, Nat.testBit_two_pow_self,
      Bool.or_true]
  · intro j hj
    rw [Nat.testBit_or, Nat.one_shiftLeft,
      Nat.testBit_two_pow_of_ne (by omega), Bool.or_false]

theorem invariant_symm {a b : Nat} (h : Invariant a b) : Invariant b a := by
  obtain ⟨hd, hlt, hcols⟩ := h
  refine ⟨?_, ?_, ?_⟩
  · rw [Nat.and_comm]; exact hd
  · rw [Nat.or_comm]; exact hlt
  · rw [Nat.or_comm]; exact hcols

theorem invariant_after_move {a b c h : Nat} (hinv : Invariant a b)
    (hc : c < WIDTH) (hcol : column_bits (a ||| b) c = 2 ^ h - 1)
    (hh : h < HEIGHT) :
    Invariant (a ||| 1 <<< (c * HEIGHT1 + h)) b ∧
    (a ||| 1 <<< (c * HEIGHT1 + h)) &&& b = 0 ∧
    (a ||| b).testBit (c * HEIGHT1 + h) = false := by
  obtain ⟨hd, hlt, hcols⟩ := hinv
  have hfree : (a ||| b).testBit (c * HEIGHT1 + h) = false := by
    rw [col_testBit hcol (by unfold HEIGHT at hh; omega)]
    simp
  have hbfree : b.testBit (c * HEIGHT1 + h) = false := by
    have := hfree
    rw [Nat.testBit_or] at this
    exact (Bool.or_eq_false_iff.1 this).2
  have hdisj : (a ||| 1 <<< (c * HEIGHT1 + h)) &&& b = 0 := by
    apply Nat.eq_of_testBit_eq
    intro i
    rw [Nat.testBit_and, Nat.testBit_or, Nat.zero_testBit, Nat.one_shiftLeft]
    by_cases hik : i = c * HEIGHT1 + h
    · subst hik
      rw [hbfree, Bool.and_false]
    · rw [Nat.testBit_two_pow_of_ne (fun he => hik he.symm), Bool.or_false]
      have : (a &&& b).testBit i = false := by rw [hd, Nat.zero_testBit]
      rw [Nat.testBit_and] at this
      exact this
  refine ⟨⟨hdisj, ?_, ?_⟩, hdisj, hfree⟩
  · have hor : (a ||| 1 <<< (c * HEIGHT1 + h)) ||| b =
        (a ||| b) ||| 1 <<< (c * HEIGHT1 + h) := by
      rw [Nat.or_assoc, Nat.or_assoc, Nat.or_comm (1 <<< (c * HEIGHT1 + h)) b]
    rw [hor]
    apply Nat.or_lt_two_pow hlt
    rw [Nat.one_shiftLeft]
    apply Nat.pow_lt_pow_right (by omega)
    unfold SIZE WIDTH HEIGHT1 HEIGHT
    unfold WIDTH at hc
    unfold HEIGHT at hh
    omega
  · intro c2 hc2
    have hor : (a ||| 1 <<< (c * HEIGHT1 + h)) ||| b =
        (a ||| b) ||| 1 <<< (c * HEIGHT1 + h) := by
      rw [Nat.or_assoc, Nat.or_assoc, Nat.or_comm (1 <<< (c * HEIGHT1 + h)) b]
    rw [hor, column_bits_or]
    rw [column_bits_single c h c2 (by unfold HEIGHT at hh; omega)
      (by unfold WIDTH at hc2; omega)]
    by_cases hceq : c2 = c
    · subst hceq
      rw [if_pos rfl, hcol, pow_or_pred]
      exact ⟨h + 1, by unfold HEIGHT at hh ⊢; omega, rfl⟩
    · rw [if_neg hceq, Nat.or_zero]
      exact hcols c2 hc2

theorem bit_at_eq_zero_iff (bits r c : Nat) :
    bit_at bits r c = 0 ↔ bits.testBit (c * HEIGHT1 + r) = false := by
  rw [bit_at_eq]
  cases h : bits.testBit (c * HEIGHT1 + r) <;> simp

theorem bit_at_eq_one_iff (bits r c : Nat) :
    bit_at bits r c = 1 ↔ bits.testBit (c * HEIGHT1 + r) = true := by
  rw [bit_at_eq]
  cases h : bits.testBit (c * HEIGHT1 + r) <;> simp

/-! ## Claim C7 (amended): `make_move` under the stacking invariant -/

/-- **C7, amended.**  Under the full bitboard invariant — disjoint boards
*and* every column stacked from the bottom (which the claim's bare
"disjoint, rows 0..5" version omits; see the counterexample) — playing a
non-full column adds exactly one bit, at the lowest unoccupied cell of the
column (height `h`), keeps the opponent board unchanged, never touches the
sentinel row, and preserves disjointness and the whole invariant. -/
theorem make_move_one_new_bit (a b c h : Nat) (hinv : Invariant a b)
    (hc : c < WIDTH) (hcol : column_bits (a ||| b) c = 2 ^ h - 1)
    (hh : h < HEIGHT) :
    make_move a b c = .ok (a ||| 1 <<< (c * HEIGHT1 + h), b) ∧
    (a ||| b).testBit (c * HEIGHT1 + h) = false ∧
    (∀ r, r < h → (a ||| b).testBit (c * HEIGHT1 + r) = true) ∧
    (a ||| 1 <<< (c * HEIGHT1 + h)) &&& b = 0 ∧
    Invariant (a ||| 1 <<< (c * HEIGHT1 + h)) b := by
  have h6 : h < 6 := by unfold HEIGHT at hh; omega
  have hmv : move_bit (a ||| b) c = 1 <<< (c * HEIGHT1 + h) := by
    rw [move_bit_eq (by omega) hcol, if_pos h6]
  obtain ⟨hinv2, hdisj, hfree⟩ := invariant_after_move hinv hc hcol hh
  refine ⟨?_, hfree, ?_, hdisj, hinv2⟩
  · have hne : (1 : Nat) <<< (c * HEIGHT1 + h) ≠ 0 := by
      rw [Nat.one_shiftLeft]
      exact (Nat.two_pow_pos _).ne'
    simp only [make_move, hmv]
    rw [if_neg hne]
  · intro r hr
    rw [col_testBit hcol (by omega)]
    simp [hr]

/-- **C7, amended, witness.**  Dropping into the empty column 1 of the
reachable position (21, 42). -/
theorem make_move_one_new_bit_witness :
    make_move 21 42 1 = .ok (21 ||| 1 <<< (1 * HEIGHT1 + 0), 42) ∧
    (21 ||| 42).testBit (1 * HEIGHT1 + 0) = false ∧
    (∀ r, r < 0 → (21 ||| 42).testBit (1 * HEIGHT1 + r) = true) ∧
    (21 ||| 1 <<< (1 * HEIGHT1 + 0)) &&& 42 = 0 ∧
    Invariant (21 ||| 1 <<< (1 * HEIGHT1 + 0)) 42 :=
  make_move_one_new_bit 21 42 1 0 (invariant_of_check (by decide))
    (by decide) (by decide) (by decide)

/-! ## Claim C8 (amended): `valid_columns` tests the top playable row -/

/-- **C8, amended.**  `valid_columns` keeps, in the fixed center-first order
`[3,2,4,1,5,0,6]`, the columns whose *top playable row* bit
(row `HEIGHT - 1 = 5`, not the sentinel row the claim names) is unset in the
combined occupancy; under the bitboard invariant these are exactly the
columns that are not full. -/
theorem valid_columns_top_row_and_not_full (a b : Nat)
    (hinv : Invariant a b) :
    valid_columns a b =
      MOVE_ORDER.filter (fun c => bit_at (a ||| b) (HEIGHT - 1) c == 0) ∧
    valid_columns a b =
      MOVE_ORDER.filter
        (fun c => column_bits (a ||| b) c != 2 ^ HEIGHT - 1) := by
  constructor
  · unfold valid_columns
    apply List.filter_congr
    intro c _
    rw [Bool.eq_iff_iff]
    simp only [beq_iff_eq]
    rw [bit_at_eq_zero_iff]
    rw [show c * HEIGHT1 + (HEIGHT - 1) = HEIGHT - 1 + c * HEIGHT1 from
      Nat.add_comm _ _]
    exact and_two_pow_eq_zero_iff (a ||| b) (HEIGHT - 1 + c * HEIGHT1)
  · have hmo : ∀ c ∈ MOVE_ORDER, c < WIDTH := by decide
    unfold valid_columns
    apply List.filter_congr
    intro c hc
    obtain ⟨h, hh6, hcol⟩ := hinv.2.2 c (hmo c hc)
    unfold HEIGHT at hh6
    rw [Bool.eq_iff_iff]
    simp only [beq_iff_eq, bne_iff_ne, ne_eq]
    constructor
    · intro h0
      have h6 : h < 6 := (top_mask_iff hh6 hcol).1 h0
      intro heq
      rw [hcol] at heq
      unfold HEIGHT at heq
      interval_cases h <;> norm_num at heq
    · intro hne
      apply (top_mask_iff hh6 hcol).2
      by_contra h6
      have he : h = 6 := by omega
      subst he
      exact hne (by rw [hcol]; rfl)

/-- **C8, amended, witness.**  The invariant hypothesis discharged at the
reachable position (21, 42) whose column 0 is full. -/
theorem valid_columns_top_row_and_not_full_witness :
    valid_columns 21 42 =
      MOVE_ORDER.filter (fun c => bit_at (21 ||| 42) (HEIGHT - 1) c == 0) ∧
    valid_columns 21 42 =
      MOVE_ORDER.filter
        (fun c => column_bits (21 ||| 42) c != 2 ^ HEIGHT - 1) :=
  valid_columns_top_row_and_not_full 21 42 (invariant_of_check (by decide))

/-! ## Claim C9: `make_move` and `drop` fail exactly on full columns -/

/-- **C9.**  Under the bitboard invariant, `make_move` raises its
`ColumnFull` error iff the chosen column's top occupied-area cell (row 5) is
taken in the combined occupancy; `GameState.drop` raises under exactly the
same condition; when the column is not full neither operation fails. -/
theorem column_full_error_iff (st : GameState) (c h : Nat) (is_human : Bool)
    (hinv : Invariant st.ai_bits st.human_bits) (hc : c < WIDTH)
    (hcol : column_bits (st.ai_bits ||| st.human_bits) c = 2 ^ h - 1)
    (hh : h ≤ HEIGHT) :
    ((∃ e, make_move st.ai_bits st.human_bits c = .error e) ↔
      bit_at (st.ai_bits ||| st.human_bits) (HEIGHT - 1) c = 1) ∧
    ((st.drop c is_human).2 ≠ none ↔
      bit_at (st.ai_bits ||| st.human_bits) (HEIGHT - 1) c = 1) := by
  have hh6 : h ≤ 6 := hh
  simp only [show HEIGHT - 1 = 5 from rfl]
  have hfull_iff : bit_at (st.ai_bits ||| st.human_bits) 5 c = 1 ↔
      h = 6 := by
    rw [bit_at_eq_one_iff, col_testBit hcol (by omega)]
    constructor
    · intro hd
      have : 5 < h := of_decide_eq_true hd
      omega
    · intro he
      subst he
      simp
  constructor
  · rw [hfull_iff]
    constructor
    · rintro ⟨e, he⟩
      by_contra h6
      have hlt : h < 6 := by omega
      have hmv : move_bit (st.ai_bits ||| st.human_bits) c =
          1 <<< (c * HEIGHT1 + h) := by
        rw [move_bit_eq hh6 hcol, if_pos hlt]
      have hne : (1 : Nat) <<< (c * HEIGHT1 + h) ≠ 0 := by
        rw [Nat.one_shiftLeft]
        exact (Nat.two_pow_pos _).ne'
      simp only [make_move, hmv] at he
      rw [if_neg hne] at he
      exact Except.noConfusion he
    · intro he
      subst he
      have hmv : move_bit (st.ai_bits ||| st.human_bits) c = 0 := by
        rw [move_bit_eq hh6 hcol]
        simp
      refine ⟨"Column is full", ?_⟩
      simp [make_move, hmv]
  · rw [hfull_iff]
    have htop := top_mask_iff hh6 hcol
    constructor
    · intro hne2
      by_contra h6
      have hlt : h < 6 := by omega
      apply hne2
      have htop0 : (st.ai_bits ||| st.human_bits) &&& TOP_MASKS c = 0 :=
        htop.2 hlt
      have hcond : ¬((st.ai_bits ||| st.human_bits) &&& TOP_MASKS c ≠ 0) := by
        simp [htop0]
      have hmv : move_bit (st.ai_bits ||| st.human_bits) c =
          1 <<< (c * HEIGHT1 + h) := by
        rw [move_bit_eq hh6 hcol, if_pos hlt]
      have hne : (1 : Nat) <<< (c * HEIGHT1 + h) ≠ 0 := by
        rw [Nat.one_shiftLeft]
        exact (Nat.two_pow_pos _).ne'
      have hmm1 : make_move st.ai_bits st.human_bits c =
          .ok (st.ai_bits ||| 1 <<< (c * HEIGHT1 + h), st.human_bits) := by
        simp only [make_move, hmv]
        rw [if_neg hne]
      have hmm2 : make_move st.human_bits st.ai_bits c =
          .ok (st.human_bits ||| 1 <<< (c * HEIGHT1 + h), st.ai_bits) := by
        have hmv2 : move_bit (st.human_bits ||| st.ai_bits) c =
            1 <<< (c * HEIGHT1 + h) := by
          rw [Nat.or_comm]
          exact hmv
        simp only [make_move, hmv2]
        rw [if_neg hne]
      cases hrow : target_row (st.ai_bits ||| st.human_bits) c with
      | none =>
        exfalso
        have hall := List.find?_eq_none.1 hrow h
          (List.mem_range.2 (by unfold HEIGHT; omega))
        apply hall
        simp only [beq_iff_eq]
        exact (bit_at_eq_zero_iff _ _ _).2
          (by rw [col_testBit hcol (by omega)]; simp)
      | some row =>
        cases is_human with
        | true => simp [GameState.drop, hcond, hrow, hmm2]
        | false => simp [GameState.drop, hcond, hrow, hmm1]
    · intro he
      subst he
      have htop1 : (st.ai_bits ||| st.human_bits) &&& TOP_MASKS c ≠ 0 := by
        intro h0
        exact absurd (htop.1 h0) (by omega)
      simp [GameState.drop, htop1]

/-- **C9, witness.**  The full column 0 of the reachable position (21, 42):
both `make_move` and `drop` fail there, and the top occupied-area cell is
taken. -/
theorem column_full_error_iff_witness :
    ((∃ e, make_move (GameState.mk 21 42 none none).ai_bits
        (GameState.mk 21 42 none none).human_bits 0 = .error e) ↔
      bit_at ((GameState.mk 21 42 none none).ai_bits |||
        (GameState.mk 21 42 none none).human_bits) (HEIGHT - 1) 0 = 1) ∧
    (((GameState.mk 21 42 none none).drop 0 true).2 ≠ none ↔
      bit_at ((GameState.mk 21 42 none none).ai_bits |||
        (GameState.mk 21 42 none none).human_bits) (HEIGHT - 1) 0 = 1) :=
  column_full_error_iff (GameState.mk 21 42 none none) 0 6 true
    (invariant_of_check (by decide)) (by decide) (by decide) (by decide)

/-! ## Claim C4: structure of `best_ai_move` -/

theorem bestStep_fold_invariant (ai_bits human_bits : Nat) (depth : Nat) :
    ∀ (cols : List Nat) (pre : List (Nat × Int)) (m : Int) (bc : List Nat)
      (tbl : Table),
      (∀ q ∈ pre, q.2 ≤ m) → (∃ q ∈ pre, q.2 = m) →
      bc = (pre.filter (fun p => p.2 == m)).map Prod.fst →
      ∃ m2,
        (cols.foldl (bestStep ai_bits human_bits depth) (some m, bc, tbl)).1 =
          some m2 ∧
        (cols.foldl (bestStep ai_bits human_bits depth)
            (some m, bc, tbl)).2.1 =
          ((cols.foldl (scoredStep ai_bits human_bits depth)
              (pre, tbl)).1.filter (fun p => p.2 == m2)).map Prod.fst ∧
        (∀ q ∈ (cols.foldl (scoredStep ai_bits human_bits depth)
            (pre, tbl)).1, q.2 ≤ m2) ∧
        (∃ q ∈ (cols.foldl (scoredStep ai_bits human_bits depth)
            (pre, tbl)).1, q.2 = m2) := by
  intro cols
  induction cols with
  | nil =>
    intro pre m bc tbl hle hat hbc
    exact ⟨m, rfl, hbc, hle, hat⟩
  | cons col rest ih =>
    intro pre m bc tbl hle hat hbc
    simp only [List.foldl_cons]
    simp only [bestStep, scoredStep]
    set res := negamax (depth - 1) human_bits
      (ai_bits ||| move_bit (ai_bits ||| human_bits) col)
      (-1000000000) 1000000000 tbl with hres
    set score := -res.1 with hscore
    by_cases hgt : m < score
    · have h1 : ∀ q ∈ pre ++ [(col, score)], q.2 ≤ score := by
        intro q hq
        rcases List.mem_append.1 hq with hq | hq
        · exact le_of_lt (lt_of_le_of_lt (hle q hq) hgt)
        · simp at hq; simp [hq]
      have h2 : ∃ q ∈ pre ++ [(col, score)], q.2 = score := by
        exact ⟨(col, score), by simp⟩
      have h3 : [col] =
          ((pre ++ [(col, score)]).filter
            (fun p => p.2 == score)).map Prod.fst := by
        have hpre : pre.filter (fun p => p.2 == score) = [] := by
          rw [List.filter_eq_nil_iff]
          intro p hp
          have := hle p hp
          simp only [beq_iff_eq]
          intro hpe
          rw [hpe] at this
          exact absurd hgt (not_lt.2 this)
        simp [List.filter_append, hpre]
      have := ih (pre ++ [(col, score)]) score [col] res.2 h1 h2 h3
      simpa [hgt] using this
    · by_cases heq : score = m
      · have h1 : ∀ q ∈ pre ++ [(col, score)], q.2 ≤ m := by
          intro q hq
          rcases List.mem_append.1 hq with hq | hq
          · exact hle q hq
          · simp at hq; simp [hq, heq]
        have h2 : ∃ q ∈ pre ++ [(col, score)], q.2 = m :=
          ⟨(col, score), by simp [heq]⟩
        have h3 : bc ++ [col] =
            ((pre ++ [(col, score)]).filter
              (fun p => p.2 == m)).map Prod.fst := by
          simp [List.filter_append, heq, hbc]
        have := ih (pre ++ [(col, score)]) m (bc ++ [col]) res.2 h1 h2 h3
        simpa [hgt, heq] using this
      · have h1 : ∀ q ∈ pre ++ [(col, score)], q.2 ≤ m := by
          intro q hq
          rcases List.mem_append.1 hq with hq | hq
          · exact hle q hq
          · simp at hq
            simp [hq]
            exact le_of_not_lt hgt
        have h2 : ∃ q ∈ pre ++ [(col, score)], q.2 = m := by
          obtain ⟨q, hq, hqe⟩ := hat
          exact ⟨q, List.mem_append_left _ hq, hqe⟩
        have h3 : bc =
            ((pre ++ [(col, score)]).filter
              (fun p => p.2 == m)).map Prod.fst := by
          have : ((col, score) : Nat × Int).2 ≠ m := heq
          simp [List.filter_append, this, hbc]
        have := ih (pre ++ [(col, score)]) m bc res.2 h1 h2 h3
        simpa [hgt, heq] using this

/-- Rewriting "score equals the running maximum" into the claim's "score is
greater than or equal to every score". -/
theorem filter_max_eq_filter_all_le (l : List (Nat × Int)) (m : Int)
    (hle : ∀ q ∈ l, q.2 ≤ m) (hat : ∃ q ∈ l, q.2 = m) :
    l.filter (fun p => p.2 == m) =
      l.filter (fun p => l.all (fun q => decide (q.2 ≤ p.2))) := by
  apply List.filter_congr
  intro p hp
  obtain ⟨q0, hq0, hq0e⟩ := hat
  rw [Bool.eq_iff_iff]
  simp only [beq_iff_eq, List.all_eq_true, decide_eq_true_eq]
  constructor
  · intro hpe q hq
    rw [hpe]
    exact hle q hq
  · intro hall
    exact le_antisymm (hle p hp) (hq0e ▸ hall q0 hq0)

/-! ## Claim C6: the heuristic as a windows-table sum -/

theorem disjoint_bit {a b : Nat} (h : a &&& b = 0) (i : Nat) :
    ¬(a.testBit i = true ∧ b.testBit i = true) := by
  rintro ⟨ha, hb⟩
  have hand : (a &&& b).testBit i = true := by
    rw [Nat.testBit_land, ha, hb]; rfl
  rw [h] at hand
  simp [Nat.zero_testBit] at hand

theorem cell_count_eq {a b : Nat} (h : a &&& b = 0) (rc : Nat × Nat) :
    ((cell a b rc.1 rc.2 == 1) = (bit_at a rc.1 rc.2 == 1)) ∧
    ((cell a b rc.1 rc.2 == -1) = (bit_at b rc.1 rc.2 == 1)) ∧
    ((cell a b rc.1 rc.2 == 0) =
      (bit_at a rc.1 rc.2 == 0 && bit_at b rc.1 rc.2 == 0)) := by
  have ha := bit_at_eq a rc.1 rc.2
  have hb := bit_at_eq b rc.1 rc.2
  have hd := disjoint_bit h (rc.2 * HEIGHT1 + rc.1)
  cases hta : a.testBit (rc.2 * HEIGHT1 + rc.1) <;>
    cases htb : b.testBit (rc.2 * HEIGHT1 + rc.1)
  · rw [hta] at ha; rw [htb] at hb
    simp only [if_neg Bool.false_ne_true] at ha hb
    simp [cell, ha, hb]
  · rw [hta] at ha; rw [htb] at hb
    simp only [if_neg Bool.false_ne_true, if_pos rfl] at ha hb
    simp [cell, ha, hb]
  · rw [hta] at ha; rw [htb] at hb
    simp only [if_neg Bool.false_ne_true, if_pos rfl] at ha hb
    simp [cell, ha, hb]
  · exact absurd ⟨hta, htb⟩ hd

theorem count_map_cell {a b : Nat} (h : a &&& b = 0) (w : List (Nat × Nat)) :
    ((w.map (fun rc => cell a b rc.1 rc.2)).count 1 =
      w.countP (fun rc => bit_at a rc.1 rc.2 == 1)) ∧
    ((w.map (fun rc => cell a b rc.1 rc.2)).count (-1) =
      w.countP (fun rc => bit_at b rc.1 rc.2 == 1)) ∧
    ((w.map (fun rc => cell a b rc.1 rc.2)).count 0 =
      w.countP (fun rc =>
        bit_at a rc.1 rc.2 == 0 && bit_at b rc.1 rc.2 == 0)) := by
  refine ⟨?_, ?_, ?_⟩
  · rw [List.count_eq_countP, List.countP_map]
    apply List.countP_congr
    intro rc hrc
    simp only [Function.comp_apply]
    exact iff_of_eq (congrArg (fun x => x = true) (cell_count_eq h rc).1)
  · rw [List.count_eq_countP, List.countP_map]
    apply List.countP_congr
    intro rc hrc
    simp only [Function.comp_apply]
    exact iff_of_eq (congrArg (fun x => x = true) (cell_count_eq h rc).2.1)
  · rw [List.count_eq_countP, List.countP_map]
    apply List.countP_congr
    intro rc hrc
    simp only [Function.comp_apply]
    exact iff_of_eq (congrArg (fun x => x = true) (cell_count_eq h rc).2.2)

theorem counts_partition {a b : Nat} (h : a &&& b = 0) (w : List (Nat × Nat)) :
    w.countP (fun rc => bit_at a rc.1 rc.2 == 1) +
      w.countP (fun rc => bit_at b rc.1 rc.2 == 1) +
      w.countP (fun rc =>
        bit_at a rc.1 rc.2 == 0 && bit_at b rc.1 rc.2 == 0) = w.length := by
  induction w with
  | nil => simp
  | cons rc t ih =>
    have ha := bit_at_eq a rc.1 rc.2
    have hb := bit_at_eq b rc.1 rc.2
    have hd := disjoint_bit h (rc.2 * HEIGHT1 + rc.1)
    simp only [List.countP_cons, List.length_cons]
    cases hta : a.testBit (rc.2 * HEIGHT1 + rc.1) <;>
      cases htb : b.testBit (rc.2 * HEIGHT1 + rc.1)
    · rw [hta] at ha; rw [htb] at hb
      simp only [if_neg Bool.false_ne_true] at ha hb
      simp [ha, hb]; omega
    · rw [hta] at ha; rw [htb] at hb
      simp only [if_neg Bool.false_ne_true, if_pos rfl] at ha hb
      simp [ha, hb]; omega
    · rw [hta] at ha; rw [htb] at hb
      simp only [if_neg Bool.false_ne_true, if_pos rfl] at ha hb
      simp [ha, hb]; omega
    · exact absurd ⟨hta, htb⟩ hd

theorem contrib_chain_eq (m t e : Nat) (hlen : m + t + e = 4) :
    (if m = 4 then (100000 : Int)
     else if m = 3 ∧ e = 1 then 100
     else if m = 2 ∧ e = 2 then 10
     else if t = 3 ∧ e = 1 then -120
     else if t = 4 then -100000
     else 0) =
    ((if m = 4 then (100000 : Int)
      else if m = 3 ∧ e = 1 then 100
      else if m = 2 ∧ e = 2 then 10
      else 0) +
     (if t = 3 ∧ e = 1 then (-120 : Int)
      else if t = 4 then -100000
      else 0)) := by
  have hm : m ≤ 4 := by omega
  have ht : t ≤ 4 := by omega
  have he : e ≤ 4 := by omega
  interval_cases m <;> interval_cases t <;> interval_cases e <;> omega

theorem window_contrib_eq_score {a b : Nat} (h : a &&& b = 0)
    (w : List (Nat × Nat)) (hw : w.length = 4) :
    window_contrib a b w =
      score_window (w.map (fun rc => cell a b rc.1 rc.2)) := by
  unfold window_contrib score_window
  obtain ⟨h1, h2, h3⟩ := count_map_cell h w
  rw [h1, h2, h3]
  rw [← contrib_chain_eq _ _ _ (by rw [counts_partition h w, hw])]

theorem sum_map_flatten {α : Type} (g : α → Int) (L : List (List α)) :
    ((L.flatten).map g).sum = (L.map (fun l => (l.map g).sum)).sum := by
  induction L with
  | nil => rfl
  | cons l t ih =>
    simp [List.map_append, List.sum_append, ih, Function.comp_def]

theorem sum_map_sub {α : Type} (f g : α → Int) (l : List α) :
    (l.map (fun x => f x - g x)).sum = (l.map f).sum - (l.map g).sum := by
  induction l with
  | nil => rfl
  | cons x t ih => simp [ih]; ring

theorem sum_contrib_family {a b : Nat} (h : a &&& b = 0)
    (outerN innerN : Nat) (f : Nat → Nat → List (Nat × Nat))
    (hlen : ∀ r c, (f r c).length = 4) :
    ((((List.range outerN).map (fun r =>
        (List.range innerN).map (fun c => f r c))).flatten).map
      (window_contrib a b)).sum =
    ((List.range outerN).map (fun r =>
      ((List.range innerN).map (fun c =>
        score_window ((f r c).map (fun rc => cell a b rc.1 rc.2)))).sum)).sum := by
  rw [sum_map_flatten]
  simp only [List.map_map]
  apply congrArg
  apply List.map_congr_left
  intro r _
  simp only [Function.comp_apply]
  rw [List.map_map]
  apply congrArg
  apply List.map_congr_left
  intro c _
  simp only [Function.comp_apply]
  exact window_contrib_eq_score h (f r c) (hlen r c)

/-- **C6.**  `heuristic` equals the sum, over every 4-cell window of the 6×7
grid (horizontal, vertical, both diagonals), of the fixed scoring table
applied to the window's counts of the AI's stones, the opponent's stones and
the empty cells, plus six times the center-column count difference.  The two
bitboards are assumed disjoint (each cell has one owner). -/
theorem heuristic_eq_spec_heuristic (a b : Nat) (h : a &&& b = 0) :
    heuristic a b = spec_heuristic a b := by
  unfold spec_heuristic all_windows horizontal_windows vertical_windows
    diag1_windows diag2_windows
  rw [List.map_append, List.map_append, List.map_append,
    List.sum_append, List.sum_append, List.sum_append]
  rw [sum_contrib_family h _ _ _ (fun r c => by simp [hwin]),
    sum_contrib_family h _ _ _ (fun r c => by simp [vwin]),
    sum_contrib_family h _ _ _ (fun r c => by simp [d1win]),
    sum_contrib_family h _ _ _ (fun r c => by simp [d2win])]
  unfold heuristic center_count
  simp only [hwin, vwin, d1win, d2win, List.map_map, Function.comp_def]
  have hc : ((List.range HEIGHT).map
      (fun r => cell a b r (WIDTH / 2))).sum =
      ((List.range HEIGHT).map
        (fun r => (bit_at a r (WIDTH / 2) : Int))).sum -
      ((List.range HEIGHT).map
        (fun r => (bit_at b r (WIDTH / 2) : Int))).sum := by
    rw [← sum_map_sub]
    rfl
  rw [hc]
  ring

/-- **C6, witness.**  The disjointness hypothesis discharged at the concrete
reachable position (21, 42). -/
theorem heuristic_eq_spec_heuristic_witness :
    (21 : Nat) &&& 42 = 0 ∧ heuristic 21 42 = spec_heuristic 21 42 :=
  ⟨by decide, heuristic_eq_spec_heuristic 21 42 (by decide)⟩

/-- **C4.**  `best_ai_move`: on a completely empty board it hands the full
legal-column list (no search) to the uniform choice; otherwise it hands the
choice exactly the legal columns achieving the maximum of the scores obtained
by applying each move and negating `negamax` on the result with roles
swapped, depth minus one, window `[-10^9, 10^9]`, and one fresh transposition
table.  Uniform random choice is modelled by the abstract `pick`. -/
theorem best_ai_move_spec (pick : List Nat → Nat) (st : GameState)
    (depth : Nat) :
    st.best_ai_move pick depth =
      if st.ai_bits = 0 ∧ st.human_bits = 0 then pick st.available_cols
      else pick (best_scored_cols st.ai_bits st.human_bits depth) := by
  by_cases h0 : st.ai_bits = 0 ∧ st.human_bits = 0
  · simp [GameState.best_ai_move, h0]
  · simp only [GameState.best_ai_move, h0, if_false]
    congr 1
    unfold best_scored_cols scored_moves
    cases hcols : st.available_cols with
    | nil =>
      simp only [GameState.available_cols] at hcols
      simp [hcols]
    | cons col rest =>
      simp only [GameState.available_cols] at hcols
      rw [hcols]
      simp only [List.foldl_cons]
      simp only [bestStep, scoredStep]
      simp only [List.nil_append]
      set score := -(negamax (depth - 1) st.human_bits
        (st.ai_bits ||| move_bit (st.ai_bits ||| st.human_bits) col)
        (-1000000000) 1000000000 []).1 with hscore
      obtain ⟨m2, hm2, hbc, hle, hat⟩ :=
        bestStep_fold_invariant st.ai_bits st.human_bits depth rest
          [(col, score)] score [col] _
          (by simp) ⟨(col, score), by simp⟩ (by simp)
      rw [hbc, filter_max_eq_filter_all_le _ m2 hle hat]

/-! ## Claim C5: the transposition-table contract -/

theorem ttLookup_store_self (tbl : Table) (key : Nat × Nat) (e : TTEntry) :
    ttLookup (ttStore tbl key e) key = some e := by
  simp [ttLookup, ttStore]

theorem ttProbe_hit (tbl : Table) (key : Nat × Nat) (d sd : Nat) (ss : Int)
    (hl : ttLookup tbl key = some (sd, ss)) (hd : d ≤ sd) :
    ttProbe tbl key d = some ss := by
  simp [ttProbe, hl, hd]

theorem negamax_hit (d ai hu : Nat) (al be : Int) (tbl : Table)
    (sd : Nat) (ss : Int)
    (hl : ttLookup tbl (ai, hu) = some (sd, ss)) (hd : d ≤ sd) :
    negamax d ai hu al be tbl = (ss, tbl) := by
  rw [negamax.eq_def]
  simp only [ttProbe_hit tbl (ai, hu) d sd ss hl hd]

theorem negamax_table_shape (d ai hu : Nat) (al be : Int) (tbl : Table) :
    (negamax d ai hu al be tbl).2 = tbl ∨
    ttLookup (negamax d ai hu al be tbl).2 (ai, hu) =
      some (d, (negamax d ai hu al be tbl).1) := by
  rcases hres : negamax d ai hu al be tbl with ⟨res, rtbl⟩
  rw [negamax.eq_def] at hres
  simp only [] at hres
  split at hres
  · exact Or.inl (congrArg Prod.snd hres.symm)
  · split at hres
    · exact Or.inl (congrArg Prod.snd hres.symm)
    · split at hres
      · exact Or.inl (congrArg Prod.snd hres.symm)
      · split at hres
        · exact Or.inl (congrArg Prod.snd hres.symm)
        · exact Or.inl (congrArg Prod.snd hres.symm)
        · rename_i d2 col rest heq
          cases hres
          exact Or.inr (by simp [ttLookup_store_self])

theorem negamax_second_query (d ai hu : Nat) (al be : Int) (tbl : Table) :
    (negamax d ai hu al be (negamax d ai hu al be tbl).2).1 =
      (negamax d ai hu al be tbl).1 := by
  rcases negamax_table_shape d ai hu al be tbl with hsh | hsh
  · rw [hsh]
  · rw [negamax_hit d ai hu al be _ d (negamax d ai hu al be tbl).1 hsh
      (le_refl d)]

theorem ttProbe_none_of_stale {tbl : Table} {key : Nat × Nat} {d : Nat}
    (hs : StaleOrMiss tbl key d) : ttProbe tbl key d = none := by
  unfold ttProbe
  cases hl : ttLookup tbl key with
  | none => rfl
  | some e =>
    obtain ⟨sd, ss⟩ := e
    have := hs sd ss hl
    simp
    omega

theorem ttLookup_store_eq (tbl : Table) (key k : Nat × Nat) (e : TTEntry) :
    ttLookup (ttStore tbl key e) k =
      if k = key then some e else ttLookup tbl k := by
  by_cases hk : k = key
  · subst hk
    simp [ttLookup, ttStore]
  · have hne : (key == k) = false := by
      simp only [beq_eq_false_iff_ne, ne_eq]
      exact fun he => hk he.symm
    simp [ttLookup, ttStore, List.find?_cons, hne, hk]

theorem agreeExcept_store {K : Nat × Nat} {t1 t2 : Table}
    (h : AgreeExcept K t1 t2) (key : Nat × Nat) (e : TTEntry) :
    AgreeExcept K (ttStore t1 key e) (ttStore t2 key e) := by
  intro k hk
  rw [ttLookup_store_eq, ttLookup_store_eq]
  by_cases hke : k = key
  · simp [hke]
  · simp [hke, h k hk]

theorem mem_valid_columns {a b col : Nat} (h : col ∈ valid_columns a b) :
    (a ||| b) &&& TOP_MASKS col = 0 ∧ col < WIDTH := by
  have hmo : ∀ x ∈ MOVE_ORDER, x < WIDTH := by decide
  unfold valid_columns at h
  simp only [List.mem_filter, beq_iff_eq] at h
  exact ⟨h.2, hmo col h.1⟩

theorem negamaxGo_indep (K : Nat × Nat)
    (rec : Nat → Nat → Int → Int → Table → Int × Table)
    (hrec : ∀ a2 b2 al2 be2 u1 u2,
      Invariant a2 b2 → K.1 ||| K.2 < a2 ||| b2 → AgreeExcept K u1 u2 →
      (rec a2 b2 al2 be2 u1).1 = (rec a2 b2 al2 be2 u2).1 ∧
      AgreeExcept K (rec a2 b2 al2 be2 u1).2 (rec a2 b2 al2 be2 u2).2) :
    ∀ (moves : List Nat) (ai hu : Nat) (al be best : Int) (t1 t2 : Table),
      Invariant ai hu →
      K.1 ||| K.2 ≤ ai ||| hu →
      (∀ col ∈ moves, (ai ||| hu) &&& TOP_MASKS col = 0 ∧ col < WIDTH) →
      AgreeExcept K t1 t2 →
      (negamaxGo rec ai hu moves al be best t1).1 =
        (negamaxGo rec ai hu moves al be best t2).1 ∧
      AgreeExcept K (negamaxGo rec ai hu moves al be best t1).2
        (negamaxGo rec ai hu moves al be best t2).2 := by
  intro moves
  induction moves with
  | nil =>
    intro ai hu al be best t1 t2 _ _ _ hagree
    simp only [negamaxGo]
    exact ⟨trivial, hagree⟩
  | cons col rest ih =>
    intro ai hu al be best t1 t2 hinv hmask hcols hagree
    obtain ⟨htop, hcw⟩ := hcols col (by simp)
    obtain ⟨h, hh6, hcol⟩ := hinv.2.2 col hcw
    unfold HEIGHT at hh6
    have hlt : h < 6 := (top_mask_iff hh6 hcol).1 htop
    have hmb : move_bit (ai ||| hu) col = 1 <<< (col * HEIGHT1 + h) := by
      rw [move_bit_eq hh6 hcol, if_pos hlt]
    obtain ⟨hinv2, _, hfree⟩ := invariant_after_move hinv hcw hcol hlt
    have hchildinv : Invariant hu (ai ||| 1 <<< (col * HEIGHT1 + h)) :=
      invariant_symm hinv2
    have hgrow : ai ||| hu < hu ||| (ai ||| 1 <<< (col * HEIGHT1 + h)) := by
      rw [show hu ||| (ai ||| 1 <<< (col * HEIGHT1 + h)) =
          (ai ||| hu) ||| 1 <<< (col * HEIGHT1 + h) from by
        rw [← Nat.or_assoc, Nat.or_comm hu ai]]
      exact mask_lt_or_two_pow hfree
    have hchild := hrec hu (ai ||| 1 <<< (col * HEIGHT1 + h)) (-be) (-al) t1 t2
      hchildinv (lt_of_le_of_lt hmask hgrow) hagree
    simp only [negamaxGo, hmb]
    rw [hchild.1]
    by_cases hcut :
      be ≤ al ⊔ -(rec hu (ai ||| 1 <<< (col * HEIGHT1 + h)) (-be) (-al) t2).1
    · simp only [hcut, if_true]
      exact ⟨trivial, hchild.2⟩
    · simp only [hcut, if_false]
      exact ih ai hu _ be _ _ _ hinv hmask
        (fun c hcm => hcols c (List.mem_cons_of_mem _ hcm)) hchild.2

theorem negamax_indep :
    ∀ (d : Nat) (K : Nat × Nat) (ai hu : Nat) (al be : Int) (t1 t2 : Table),
      Invariant ai hu →
      ((ai, hu) = K ∨ K.1 ||| K.2 < ai ||| hu) →
      AgreeExcept K t1 t2 →
      ((ai, hu) = K → StaleOrMiss t1 K d ∧ StaleOrMiss t2 K d) →
      (negamax d ai hu al be t1).1 = (negamax d ai hu al be t2).1 ∧
      AgreeExcept K (negamax d ai hu al be t1).2
        (negamax d ai hu al be t2).2 := by
  intro d
  induction d with
  | zero =>
    intro K ai hu al be t1 t2 hinv hpos hagree hstale
    have hprobes : ttProbe t1 (ai, hu) 0 = ttProbe t2 (ai, hu) 0 := by
      by_cases hkey : (ai, hu) = K
      · obtain ⟨hs1, hs2⟩ := hstale hkey
        rw [ttProbe_none_of_stale (show StaleOrMiss t1 (ai, hu) 0 from by
              rw [hkey]; exact hs1),
          ttProbe_none_of_stale (show StaleOrMiss t2 (ai, hu) 0 from by
              rw [hkey]; exact hs2)]
      · unfold ttProbe
        rw [hagree _ hkey]
    rw [negamax.eq_def, negamax.eq_def]
    simp only []
    cases hp : ttProbe t2 (ai, hu) 0 with
    | some s =>
      have hp1 : ttProbe t1 (ai, hu) 0 = some s := hprobes.trans hp
      simp only [hp1, hp]
      exact ⟨trivial, hagree⟩
    | none =>
      have hp1 : ttProbe t1 (ai, hu) 0 = none := hprobes.trans hp
      simp only [hp1, hp]
      cases hwa : has_won ai
      · cases hwh : has_won hu
        · simp only [hwa, hwh, Bool.false_eq_true, if_false]
          exact ⟨trivial, hagree⟩
        · simp only [hwa, hwh, Bool.false_eq_true, if_false, if_true]
          exact ⟨trivial, hagree⟩
      · simp only [hwa, if_true]
        exact ⟨trivial, hagree⟩
  | succ d2 ih =>
    intro K ai hu al be t1 t2 hinv hpos hagree hstale
    have hprobes : ttProbe t1 (ai, hu) (d2 + 1) =
        ttProbe t2 (ai, hu) (d2 + 1) := by
      by_cases hkey : (ai, hu) = K
      · obtain ⟨hs1, hs2⟩ := hstale hkey
        rw [ttProbe_none_of_stale (show StaleOrMiss t1 (ai, hu) (d2 + 1) from
              by rw [hkey]; exact hs1),
          ttProbe_none_of_stale (show StaleOrMiss t2 (ai, hu) (d2 + 1) from
              by rw [hkey]; exact hs2)]
      · unfold ttProbe
        rw [hagree _ hkey]
    have hmaskle : K.1 ||| K.2 ≤ ai ||| hu := by
      rcases hpos with hk | hlt
      · rw [← hk]
      · exact le_of_lt hlt
    have hrec2 : ∀ a2 b2 al2 be2 u1 u2,
        Invariant a2 b2 → K.1 ||| K.2 < a2 ||| b2 → AgreeExcept K u1 u2 →
        (negamax d2 a2 b2 al2 be2 u1).1 = (negamax d2 a2 b2 al2 be2 u2).1 ∧
        AgreeExcept K (negamax d2 a2 b2 al2 be2 u1).2
          (negamax d2 a2 b2 al2 be2 u2).2 := by
      intro a2 b2 al2 be2 u1 u2 hi hlt hag
      refine ih K a2 b2 al2 be2 u1 u2 hi (Or.inr hlt) hag ?_
      intro hk
      rw [← hk] at hlt
      simp at hlt
    rw [negamax.eq_def, negamax.eq_def]
    simp only []
    cases hp : ttProbe t2 (ai, hu) (d2 + 1) with
    | some s =>
      have hp1 : ttProbe t1 (ai, hu) (d2 + 1) = some s := hprobes.trans hp
      simp only [hp1, hp]
      exact ⟨trivial, hagree⟩
    | none =>
      have hp1 : ttProbe t1 (ai, hu) (d2 + 1) = none := hprobes.trans hp
      simp only [hp1, hp]
      cases hwa : has_won ai
      case true =>
        simp only [hwa, if_true]
        exact ⟨trivial, hagree⟩
      case false =>
      cases hwh : has_won hu
      case true =>
        simp only [hwa, hwh, Bool.false_eq_true, if_false, if_true]
        exact ⟨trivial, hagree⟩
      case false =>
      simp only [hwa, hwh, Bool.false_eq_true, if_false]
      cases hvc : valid_columns ai hu with
      | nil =>
        simp only [hvc]
        exact ⟨trivial, hagree⟩
      | cons col rest =>
        simp only [hvc]
        have hcolmem : col ∈ valid_columns ai hu := by
          rw [hvc]
          exact List.mem_cons_self _ _
        obtain ⟨htop, hcw⟩ := mem_valid_columns hcolmem
        obtain ⟨h, hh6, hcol⟩ := hinv.2.2 col hcw
        unfold HEIGHT at hh6
        have hlt : h < 6 := (top_mask_iff hh6 hcol).1 htop
        have hmb : move_bit (ai ||| hu) col = 1 <<< (col * HEIGHT1 + h) := by
          rw [move_bit_eq hh6 hcol, if_pos hlt]
        obtain ⟨hinv2, _, hfree⟩ := invariant_after_move hinv hcw hcol hlt
        have hchildinv : Invariant hu (ai ||| 1 <<< (col * HEIGHT1 + h)) :=
          invariant_symm hinv2
        have hgrow : ai ||| hu < hu ||| (ai ||| 1 <<< (col * HEIGHT1 + h)) := by
          rw [show hu ||| (ai ||| 1 <<< (col * HEIGHT1 + h)) =
              (ai ||| hu) ||| 1 <<< (col * HEIGHT1 + h) from by
            rw [← Nat.or_assoc, Nat.or_comm hu ai]]
          exact mask_lt_or_two_pow hfree
        have hchild := hrec2 hu (ai ||| 1 <<< (col * HEIGHT1 + h)) (-be) (-al)
          t1 t2 hchildinv (lt_of_le_of_lt hmaskle hgrow) hagree
        simp only [hmb]
        rw [hchild.1]
        by_cases hcut : be ≤ al ⊔
          -(negamax d2 hu (ai ||| 1 <<< (col * HEIGHT1 + h)) (-be) (-al) t2).1
        · simp only [hcut, if_true]
          exact ⟨trivial, agreeExcept_store hchild.2 (ai, hu) _⟩
        · simp only [hcut, if_false]
          have hgo := negamaxGo_indep K
            (fun a b al2 be2 t => negamax d2 a b al2 be2 t) hrec2 rest ai hu
            (al ⊔ -(negamax d2 hu (ai ||| 1 <<< (col * HEIGHT1 + h))
              (-be) (-al) t2).1) be
            (-(negamax d2 hu (ai ||| 1 <<< (col * HEIGHT1 + h))
              (-be) (-al) t2).1)
            (negamax d2 hu (ai ||| 1 <<< (col * HEIGHT1 + h)) (-be) (-al) t1).2
            (negamax d2 hu (ai ||| 1 <<< (col * HEIGHT1 + h)) (-be) (-al) t2).2
            hinv hmaskle
            (fun c hcm => mem_valid_columns
              (by rw [hvc]; exact List.mem_cons_of_mem _ hcm)) hchild.2
          rw [hgo.1]
          exact ⟨rfl, agreeExcept_store hgo.2 (ai, hu) _⟩

theorem agreeExcept_singleton (key : Nat × Nat) (e1 e2 : TTEntry) :
    AgreeExcept key [(key, e1)] [(key, e2)] := by
  intro k hk
  have hne : (key == k) = false := by
    simp only [beq_eq_false_iff_ne, ne_eq]
    exact fun he => hk he.symm
  simp [ttLookup, List.find?_cons, hne]

/-- **C5.**  The transposition-table contract of `negamax`: (a) a stored
entry is returned as the result when its stored depth is at least the
requested depth; (b) an entry stored at a strictly shallower depth is never
returned — the position is searched again, and the score is independent of
the stale entry (any two tables agreeing away from the key, both lacking a
usable entry for it, produce the same score); (c) querying the same position
twice at the same depth through the same table yields identical scores. -/
theorem transposition_table_depth_contract :
    (∀ (d ai hu : Nat) (al be : Int) (tbl : Table) (sd : Nat) (ss : Int),
      ttLookup tbl (ai, hu) = some (sd, ss) → d ≤ sd →
      negamax d ai hu al be tbl = (ss, tbl)) ∧
    (∀ (d ai hu : Nat) (al be : Int) (t1 t2 : Table),
      Invariant ai hu →
      AgreeExcept (ai, hu) t1 t2 →
      StaleOrMiss t1 (ai, hu) d → StaleOrMiss t2 (ai, hu) d →
      (negamax d ai hu al be t1).1 = (negamax d ai hu al be t2).1) ∧
    (∀ (d ai hu : Nat) (al be : Int) (tbl : Table),
      (negamax d ai hu al be (negamax d ai hu al be tbl).2).1 =
        (negamax d ai hu al be tbl).1) :=
  ⟨fun d ai hu al be tbl sd ss hl hd =>
    negamax_hit d ai hu al be tbl sd ss hl hd,
   fun d ai hu al be t1 t2 hinv hag hs1 hs2 =>
    (negamax_indep d (ai, hu) ai hu al be t1 t2 hinv (Or.inl rfl) hag
      (fun _ => ⟨hs1, hs2⟩)).1,
   fun d ai hu al be tbl => negamax_second_query d ai hu al be tbl⟩

/-- **C5, witness.**  (a) a deep-enough entry is returned verbatim; (b) two
tables holding only depth-1 entries with different scores for the queried
position give the same depth-2 score; (c) a repeated depth-1 query through
the table produced by the first query returns the same score. -/
theorem transposition_table_depth_contract_witness :
    negamax 2 109985577517605 167127724622234 (-5) 5
        [((109985577517605, 167127724622234), (3, 7))] =
      (7, [((109985577517605, 167127724622234), (3, 7))]) ∧
    (negamax 2 109985577517605 167127724622234 (-1000000000) 1000000000
        [((109985577517605, 167127724622234), (1, 7))]).1 =
      (negamax 2 109985577517605 167127724622234 (-1000000000) 1000000000
        [((109985577517605, 167127724622234), (1, 9))]).1 ∧
    (negamax 1 109985577517605 167127724622234 (-1000000000) 1000000000
        ((negamax 1 109985577517605 167127724622234
          (-1000000000) 1000000000 []).2)).1 =
      (negamax 1 109985577517605 167127724622234
        (-1000000000) 1000000000 []).1 :=
  ⟨transposition_table_depth_contract.1 2 109985577517605 167127724622234
      (-5) 5 _ 3 7 (by decide) (by decide),
   transposition_table_depth_contract.2.1 2 109985577517605 167127724622234
      (-1000000000) 1000000000 _ _ (invariant_of_check (by decide))
      (agreeExcept_singleton _ _ _)
      (by
        intro sd ss hl
        rw [show ttLookup [((109985577517605, 167127724622234), (1, 7))]
            (109985577517605, 167127724622234) =
            some ((1 : Nat), (7 : Int)) from rfl] at hl
        simp at hl
        omega)
      (by
        intro sd ss hl
        rw [show ttLookup [((109985577517605, 167127724622234), (1, 9))]
            (109985577517605, 167127724622234) =
            some ((1 : Nat), (9 : Int)) from rfl] at hl
        simp at hl
        omega),
   transposition_table_depth_contract.2.2 1 109985577517605 167127724622234
      (-1000000000) 1000000000 []⟩

end ConnectFour
